import Mathlib

/-!
# Verification of the Chess-MCP move-search engine (`SmartChessAI`)

A shallow embedding of the `SmartChessAI` class of `src/chess-ai.ts`
(and, where a claim refers to it, of the older `SmartChessAI` variant
whose `chooseMove` takes the legal-move list first).  Boards are the
8×8 grids produced by `chess.js`'s `board()`: index 0 is rank 8 (the
top, black's back rank), index 7 is rank 1.  JavaScript numbers are
embedded as integers extended with the two infinities (`JSNum`); the
only non-integer quantity in the source, the king centre distance
`|rank-3.5|+|file-3.5|`, is an exact half-integer whose ×10 weighting
is computed exactly below.  `Math.random()`-based choice and the
wall-clock deadline check `isTimeUp()` are modelled by oracles
(`rnd : Nat → Nat` for `Math.floor(Math.random()*n)`, and
`tu : Nat → Bool` indexed by a counter of `isTimeUp()` invocations).
-/

set_option maxHeartbeats 1000000

namespace ChessMCP

/-- Side colours, the source's `"w" | "b"` strings. -/
inductive Color where
  | w : Color
  | b : Color
deriving DecidableEq, Fintype

/-- The opponent colour, the source's `color === "w" ? "b" : "w"`. -/
def Color.opp : Color → Color
  | .w => .b
  | .b => .w

/-- Piece kinds, the source's one-letter strings `"p" | "n" | "b" | "r" | "q" | "k"`. -/
inductive PieceType where
  | pawn : PieceType
  | knight : PieceType
  | bishop : PieceType
  | rook : PieceType
  | queen : PieceType
  | king : PieceType
deriving DecidableEq, Fintype

/-- A piece: `{type, color}` as in `chess.js` board cells. -/
structure Piece where
  type : PieceType
  color : Color
deriving DecidableEq

/-- Flip a piece's colour (used only to state the mirror claim). -/
def Piece.flip (p : Piece) : Piece := ⟨p.type, p.color.opp⟩

/-- A board square, decoded from the source's two-character strings:
`rank` is the array index (0 = rank 8), `file` the file index (0 = file a).
The source encodes a square as `String.fromCharCode(97+file)+(8-rank)` and
decodes it with `8 - parseInt(s[1])` and `s.charCodeAt(0) - 97`; the
encoding is a bijection on the 64 squares, so moves carry the decoded
coordinates directly. -/
structure Sq where
  rank : Fin 8
  file : Fin 8
deriving DecidableEq

/-- A move `{from, to}`.  The optional `promotion`/`san`/`lan` fields of the
source's `ChessMove` are omitted: no code path inside `SmartChessAI` ever
reads them. -/
structure ChessMove where
  fromSq : Sq
  toSq : Sq
deriving DecidableEq

/-- An 8×8 grid of optional pieces, `chess.js` orientation (row 0 = rank 8).
The type replaces the source's defensive `Array.isArray` checks: every value
of this type is a well-formed 8×8 grid. -/
abbrev Squares := Fin 8 → Fin 8 → Option Piece

/-- The `ChessBoard` record of `types.ts` (the fields besides `squares` and
`turn` are never read by the AI, but are carried to state claim C10). -/
structure ChessBoard where
  squares : Squares
  turn : Color
  castling : Bool × Bool × Bool × Bool
  enPassant : Option String
  halfMoveClock : Nat
  fullMoveNumber : Nat

/-- The square-name encoding `String.fromCharCode(97 + file) + (8 - rank)`. -/
def sqName (s : Sq) : String :=
  String.mk [Char.ofNat (97 + (s.file : Nat)), Char.ofNat (56 - (s.rank : Nat))]

/-- The coordinate string `` `${move.from}${move.to}` `` used for opening-book
matching. -/
def moveStr (m : ChessMove) : String := sqName m.fromSq ++ sqName m.toSq

/-! ## JavaScript numbers

All numbers flowing through the search are integers or `±Infinity`. -/

/-- A JavaScript number as used by the engine: an integer or an infinity. -/
inductive JSNum where
  | negInf : JSNum
  | num : ℤ → JSNum
  | posInf : JSNum
deriving DecidableEq

namespace JSNum

/-- `a <= b` on JavaScript numbers (no NaN arises in any comparison the
source performs; see the sorting comparator note at `sortByScoreDesc`). -/
def le : JSNum → JSNum → Bool
  | negInf, _ => true
  | num _, negInf => false
  | num a, num b => a ≤ b
  | num _, posInf => true
  | posInf, posInf => true
  | posInf, _ => false

/-- `a < b`. -/
def lt (a b : JSNum) : Bool := !(le b a)

/-- `Math.max`. -/
def max (a b : JSNum) : JSNum := if le a b then b else a

/-- `Math.min`. -/
def min (a b : JSNum) : JSNum := if le a b then a else b

/-- Unary minus. -/
def neg : JSNum → JSNum
  | negInf => posInf
  | num a => num (-a)
  | posInf => negInf

end JSNum

/-! ## Piece values and piece-square tables (`chess-ai.ts` lines 561–645) -/

/-- `pieceValues`: p 100, n 320, b 330, r 500, q 900, k 20000. -/
def pieceValues : PieceType → ℤ
  | .pawn => 100
  | .knight => 320
  | .bishop => 330
  | .rook => 500
  | .queen => 900
  | .king => 20000

/-- The `positionValues` tables, transcribed row by row from the source. -/
def positionTable : PieceType → List (List ℤ)
  | .pawn =>
    [[0, 0, 0, 0, 0, 0, 0, 0],
     [50, 50, 50, 50, 50, 50, 50, 50],
     [10, 10, 20, 30, 30, 20, 10, 10],
     [5, 5, 10, 25, 25, 10, 5, 5],
     [0, 0, 0, 20, 20, 0, 0, 0],
     [5, -5, -10, 0, 0, -10, -5, 5],
     [5, 10, 10, -20, -20, 10, 10, 5],
     [0, 0, 0, 0, 0, 0, 0, 0]]
  | .knight =>
    [[-50, -40, -30, -30, -30, -30, -40, -50],
     [-40, -20, 0, 0, 0, 0, -20, -40],
     [-30, 0, 10, 15, 15, 10, 0, -30],
     [-30, 5, 15, 20, 20, 15, 5, -30],
     [-30, 0, 15, 20, 20, 15, 0, -30],
     [-30, 5, 10, 15, 15, 10, 5, -30],
     [-40, -20, 0, 5, 5, 0, -20, -40],
     [-50, -40, -30, -30, -30, -30, -40, -50]]
  | .bishop =>
    [[-20, -10, -10, -10, -10, -10, -10, -20],
     [-10, 0, 0, 0, 0, 0, 0, -10],
     [-10, 0, 5, 10, 10, 5, 0, -10],
     [-10, 5, 5, 10, 10, 5, 5, -10],
     [-10, 0, 10, 10, 10, 10, 0, -10],
     [-10, 10, 10, 10, 10, 10, 10, -10],
     [-10, 5, 0, 0, 0, 0, 5, -10],
     [-20, -10, -10, -10, -10, -10, -10, -20]]
  | .rook =>
    [[0, 0, 0, 0, 0, 0, 0, 0],
     [5, 10, 10, 10, 10, 10, 10, 5],
     [-5, 0, 0, 0, 0, 0, 0, -5],
     [-5, 0, 0, 0, 0, 0, 0, -5],
     [-5, 0, 0, 0, 0, 0, 0, -5],
     [-5, 0, 0, 0, 0, 0, 0, -5],
     [-5, 0, 0, 0, 0, 0, 0, -5],
     [0, 0, 0, 5, 5, 0, 0, 0]]
  | .queen =>
    [[-20, -10, -10, -5, -5, -10, -10, -20],
     [-10, 0, 0, 0, 0, 0, 0, -10],
     [-10, 0, 5, 5, 5, 5, 0, -10],
     [-5, 0, 5, 5, 5, 5, 0, -5],
     [0, 0, 5, 5, 5, 5, 0, -5],
     [-10, 5, 5, 5, 5, 5, 0, -10],
     [-10, 0, 5, 0, 0, 0, 0, -10],
     [-20, -10, -10, -5, -5, -10, -10, -20]]
  | .king =>
    [[-30, -40, -40, -50, -50, -40, -40, -30],
     [-30, -40, -40, -50, -50, -40, -40, -30],
     [-30, -40, -40, -50, -50, -40, -40, -30],
     [-30, -40, -40, -50, -50, -40, -40, -30],
     [-20, -30, -30, -40, -40, -30, -30, -20],
     [-10, -20, -20, -20, -20, -20, -20, -10],
     [20, 20, 0, 0, 0, 0, 20, 20],
     [20, 30, 10, 0, 0, 10, 30, 20]]

/-- `getPositionValue`: table lookup with the black rows mirrored
(`actualRank = color === "w" ? rank : 7 - rank`). -/
def getPositionValue (t : PieceType) (c : Color) (r f : Fin 8) : ℤ :=
  let actualRank : Nat := if c = Color.w then (r : Nat) else 7 - (r : Nat)
  (((positionTable t).getD actualRank []).getD (f : Nat) 0)

/-! ## Board utilities -/

/-- `getPieceAt` after decoding the square string. -/
def getPieceAt (sqs : Squares) (s : Sq) : Option Piece := sqs s.rank s.file

/-- `copyBoard` produces a deep copy; on values it is the identity. -/
def copyBoard (sqs : Squares) : Squares := sqs

/-- `makeMoveOnBoard`: `squares[to] = squares[from]; squares[from] = null`.
When `from = to` the final write leaves the square empty, exactly as the
two JavaScript assignments do. -/
def makeMoveOnBoard (sqs : Squares) (m : ChessMove) : Squares :=
  let v := sqs m.fromSq.rank m.fromSq.file
  fun r f =>
    if r = m.fromSq.rank ∧ f = m.fromSq.file then none
    else if r = m.toSq.rank ∧ f = m.toSq.file then v
    else sqs r f

/-! ## Move generation (`generateBasicMoves` and helpers) -/

/-- Clamp an integer coordinate to the board, `none` when off-board
(the source's `0 <= x && x < 8` checks). -/
def toFin8 (x : ℤ) : Option (Fin 8) :=
  if h : 0 ≤ x ∧ x < 8 then some ⟨x.toNat, by omega⟩ else none

/-- Combine two coordinates into a square when both are on the board. -/
def mkSq (r f : ℤ) : Option Sq :=
  match toFin8 r, toFin8 f with
  | some r, some f => some ⟨r, f⟩
  | _, _ => none

/-- One sliding ray of `addLinearMoves`: the `while` loop walking from
`(r, f)` in direction `(dr, df)` until the edge, a capture, or an own
piece.  `fuel = 8` always suffices on an 8×8 board. -/
def slideDir (sqs : Squares) (own : Color) (dr df : ℤ) : ℤ → ℤ → Nat → List Sq
  | _, _, 0 => []
  | r, f, fuel + 1 =>
    match mkSq r f with
    | none => []
    | some s =>
      match sqs s.rank s.file with
      | none => s :: slideDir sqs own dr df (r + dr) (f + df) fuel
      | some tp => if tp.color ≠ own then [s] else []

/-- `addLinearMoves`: concatenate the rays of each direction in order. -/
def addLinearMoves (sqs : Squares) (r f : Fin 8) (own : Color)
    (dirs : List (ℤ × ℤ)) : List ChessMove :=
  dirs.foldr
    (fun d acc =>
      ((slideDir sqs own d.1 d.2 ((r : ℤ) + d.1) ((f : ℤ) + d.2) 8).map
        (fun s => ⟨⟨r, f⟩, s⟩)) ++ acc)
    []

/-- Whether a single jump offset of `addJumpMoves` yields a move. -/
def jumpTarget (sqs : Squares) (r f : Fin 8) (own : Color) (d : ℤ × ℤ) :
    Option Sq :=
  match mkSq ((r : ℤ) + d.1) ((f : ℤ) + d.2) with
  | none => none
  | some s =>
    match sqs s.rank s.file with
    | none => some s
    | some tp => if tp.color ≠ own then some s else none

/-- `addJumpMoves`: fixed-offset moves for knights and kings. -/
def addJumpMoves (sqs : Squares) (r f : Fin 8) (own : Color)
    (jumps : List (ℤ × ℤ)) : List ChessMove :=
  jumps.foldr
    (fun d acc =>
      match jumpTarget sqs r f own d with
      | some s => ⟨⟨r, f⟩, s⟩ :: acc
      | none => acc)
    []

/-- `generateBasicMoves` for the piece `p` standing on `(r, f)`. -/
def generateBasicMoves (sqs : Squares) (r f : Fin 8) (p : Piece) :
    List ChessMove :=
  match p.type with
  | .pawn =>
    let dir : ℤ := if p.color = Color.w then -1 else 1
    match mkSq ((r : ℤ) + dir) (f : ℤ) with
    | some s => if sqs s.rank s.file = none then [⟨⟨r, f⟩, s⟩] else []
    | none => []
  | .rook => addLinearMoves sqs r f p.color [(0, 1), (0, -1), (1, 0), (-1, 0)]
  | .knight => addJumpMoves sqs r f p.color
      [(-2, -1), (-2, 1), (-1, -2), (-1, 2), (1, -2), (1, 2), (2, -1), (2, 1)]
  | .bishop => addLinearMoves sqs r f p.color [(1, 1), (1, -1), (-1, 1), (-1, -1)]
  | .queen => addLinearMoves sqs r f p.color
      [(0, 1), (0, -1), (1, 0), (-1, 0), (1, 1), (1, -1), (-1, 1), (-1, -1)]
  | .king => addJumpMoves sqs r f p.color
      [(0, 1), (0, -1), (1, 0), (-1, 0), (1, 1), (1, -1), (-1, 1), (-1, -1)]

/-- The moves contributed by one square of the `getLegalMovesForBoard`
scan: the piece's generated moves when it belongs to `c`, nothing
otherwise. -/
def movesFromSquare (sqs : Squares) (c : Color) (r f : Fin 8) :
    List ChessMove :=
  match sqs r f with
  | some p => if p.color = c then generateBasicMoves sqs r f p else []
  | none => []

/-- `getLegalMovesForBoard`: pseudo-legal moves for every piece of `c`,
collected in rank-major scan order.  (Call sites that pass a `ChessBoard`
object reach this through `board.squares || board`.) -/
def getLegalMovesForBoard (sqs : Squares) (c : Color) : List ChessMove :=
  (List.finRange 8).foldr
    (fun r acc =>
      (List.finRange 8).foldr
        (fun f acc2 => movesFromSquare sqs c r f ++ acc2)
        acc)
    []

/-! ## Position evaluation (`evaluatePositionAdvanced` and its terms) -/

/-- The per-colour piece counter accumulated by the material loop of
`evaluatePositionAdvanced` (`pieceCount`). -/
def colorCount (sqs : Squares) (c : Color) : ℕ :=
  ∑ r : Fin 8, ∑ f : Fin 8,
    (match sqs r f with
     | some p => if p.color = c then 1 else 0
     | none => 0)

/-- Membership in the `pieceTypes` set accumulated by the same loop. -/
def hasPieceType (sqs : Squares) (c : Color) (t : PieceType) : Bool :=
  decide (∃ r f : Fin 8, sqs r f = some ⟨t, c⟩)

/-- `evaluateKRKEndgame` (flat 500; the board argument is unused). -/
def evaluateKRKEndgame (_sqs : Squares) : ℤ := 500

/-- `evaluateKRPKEndgame` (flat 600). -/
def evaluateKRPKEndgame (_sqs : Squares) : ℤ := 600

/-- `evaluateKQKEndgame` (flat 900; registered in `endgamePatterns` but no
call site dispatches to it). -/
def evaluateKQKEndgame (_sqs : Squares) : ℤ := 900

/-- `evaluateKPKEndgame` (flat 100; registered in `endgamePatterns` but no
call site dispatches to it). -/
def evaluateKPKEndgame (_sqs : Squares) : ℤ := 100

/-- `evaluateEndgame(board, pieceCount, pieceTypes)`: the two pattern tests
on the accumulated counts (`typesB` is passed but never read, as in the
source). -/
def evaluateEndgame (sqs : Squares) (cw cb : ℕ)
    (typesW _typesB : PieceType → Bool) : ℤ :=
  if cw + cb ≤ 6 then
    if cw = 1 ∧ cb = 1 then evaluateKRKEndgame sqs
    else if cw = 2 ∧ cb = 1 ∧ typesW PieceType.pawn then evaluateKRPKEndgame sqs
    else 0
  else 0

/-- The endgame term exactly as `evaluatePositionAdvanced` instantiates it. -/
def endgameTerm (sqs : Squares) : ℤ :=
  evaluateEndgame sqs (colorCount sqs Color.w) (colorCount sqs Color.b)
    (hasPieceType sqs Color.w) (hasPieceType sqs Color.b)

/-- `evaluateMobility`: `(whiteMoves - blackMoves) * 10` (the wrapper
`ChessBoard` objects built at the call site contribute only their
`squares`). -/
def evaluateMobility (sqs : Squares) : ℤ :=
  (((getLegalMovesForBoard sqs Color.w).length : ℤ) -
    ((getLegalMovesForBoard sqs Color.b).length : ℤ)) * 10

/-- Pawns of colour `c` on file `f` (the per-file counters of the doubled
pawn loop). -/
def pawnsOnFile (sqs : Squares) (f : Fin 8) (c : Color) : ℕ :=
  ((List.finRange 8).filter (fun r => sqs r f = some ⟨PieceType.pawn, c⟩)).length

/-- The doubled-pawn half of `evaluatePawnStructure`. -/
def doubledPawnScore (sqs : Squares) : ℤ :=
  ∑ f : Fin 8,
    ((if 1 < pawnsOnFile sqs f Color.w then
        -(30 * ((pawnsOnFile sqs f Color.w : ℤ) - 1)) else 0) +
     (if 1 < pawnsOnFile sqs f Color.b then
        30 * ((pawnsOnFile sqs f Color.b : ℤ) - 1) else 0))

/-- The files adjacent to `f` scanned by `isPawnIsolated`
(`max(0, f-1) .. min(7, f+1)` with `f` itself skipped). -/
def adjacentFiles (f : Fin 8) : List (Fin 8) :=
  [(f : ℤ) - 1, (f : ℤ) + 1].filterMap toFin8

/-- `isPawnIsolated` (the source's `rank` parameter and unused `direction`
local are dropped: the scan looks at every rank of the adjacent files). -/
def isPawnIsolated (sqs : Squares) (f : Fin 8) (c : Color) : Bool :=
  ! (adjacentFiles f).any
      (fun af => (List.finRange 8).any (fun r => sqs r af = some ⟨PieceType.pawn, c⟩))

/-- One square's contribution to the isolated-pawn penalty. -/
def isolatedTerm (sqs : Squares) (r f : Fin 8) : ℤ :=
  match sqs r f with
  | some p =>
    if p.type = PieceType.pawn ∧ isPawnIsolated sqs f p.color then
      (if p.color = Color.w then -20 else 20)
    else 0
  | none => 0

/-- The isolated-pawn half of `evaluatePawnStructure`. -/
def isolatedPawnScore (sqs : Squares) : ℤ :=
  ∑ f : Fin 8, ∑ r : Fin 8, isolatedTerm sqs r f

/-- `evaluatePawnStructure`. -/
def evaluatePawnStructure (sqs : Squares) : ℤ :=
  doubledPawnScore sqs + isolatedPawnScore sqs

/-- The rank-major scan order shared by the evaluation loops. -/
def scanSquares : List (Fin 8 × Fin 8) :=
  (List.finRange 8).foldr
    (fun r acc => ((List.finRange 8).map (fun f => (r, f))) ++ acc) []

/-- The king located by `evaluateKingSafety`'s scan: the loops have no
`break`, so the last king of colour `c` in scan order wins. -/
def lastKingPos (sqs : Squares) (c : Color) : Option (Fin 8 × Fin 8) :=
  scanSquares.foldl
    (fun acc rf =>
      if sqs rf.1 rf.2 = some ⟨PieceType.king, c⟩ then some rf else acc)
    none

/-- `evaluateKingPosition`.  The source computes
`centerDistance = |rank - 3.5| + |file - 3.5|` in floating point and weights
it by 10; `|r - 3.5| * 10 = 5 * |2r - 7|` exactly, and the half-integers sum
without rounding, so the integer below is the exact value. -/
def evaluateKingPosition (r f : Fin 8) (_c : Color) : ℤ :=
  let centerDistanceTimes10 : ℤ := 5 * (|2 * (r : ℤ) - 7| + |2 * (f : ℤ) - 7|)
  let edgePenalty : ℤ :=
    if r = (0 : Fin 8) ∨ r = (7 : Fin 8) ∨ f = (0 : Fin 8) ∨ f = (7 : Fin 8)
    then 20 else 0;
  -(centerDistanceTimes10 + edgePenalty)

/-- `evaluateKingSafety`: `+` the white king term, `-` the black king term;
a missing king contributes nothing. -/
def evaluateKingSafety (sqs : Squares) : ℤ :=
  (match lastKingPos sqs Color.w with
   | some rf => evaluateKingPosition rf.1 rf.2 Color.w
   | none => 0) -
  (match lastKingPos sqs Color.b with
   | some rf => evaluateKingPosition rf.1 rf.2 Color.b
   | none => 0)

/-- One square's material-plus-placement contribution
(`score += color === "w" ? totalValue : -totalValue`). -/
def squareScore (sqs : Squares) (r f : Fin 8) : ℤ :=
  match sqs r f with
  | some p =>
    (if p.color = Color.w then 1 else -1) *
      (pieceValues p.type + getPositionValue p.type p.color r f)
  | none => 0

/-- The material-plus-placement sum of `evaluatePositionAdvanced`'s main
loop. -/
def materialPositionScore (sqs : Squares) : ℤ :=
  ∑ r : Fin 8, ∑ f : Fin 8, squareScore sqs r f

/-- `evaluatePositionAdvanced`: the exact sum of the five terms. -/
def evaluatePositionAdvanced (sqs : Squares) : ℤ :=
  materialPositionScore sqs + endgameTerm sqs + evaluateMobility sqs +
    evaluatePawnStructure sqs + evaluateKingSafety sqs

/-- `evaluatePositionBasic` (the level-2 evaluator): material and placement
only, relative to `color`. -/
def evaluatePositionBasic (sqs : Squares) (color : Color) : ℤ :=
  ∑ r : Fin 8, ∑ f : Fin 8,
    (match sqs r f with
     | some p =>
       (if p.color = color then 1 else -1) *
         (pieceValues p.type + getPositionValue p.type p.color r f)
     | none => 0)

/-! ## Position fingerprints (`boardToFEN`) -/

/-- The one-character FEN symbol: uppercase for white
(`piece.type.toUpperCase()`), lowercase for black. -/
def pieceSymbol (p : Piece) : String :=
  match p.color, p.type with
  | Color.w, .pawn => "P"
  | Color.w, .knight => "N"
  | Color.w, .bishop => "B"
  | Color.w, .rook => "R"
  | Color.w, .queen => "Q"
  | Color.w, .king => "K"
  | Color.b, .pawn => "p"
  | Color.b, .knight => "n"
  | Color.b, .bishop => "b"
  | Color.b, .rook => "r"
  | Color.b, .queen => "q"
  | Color.b, .king => "k"

/-- One rank of the fingerprint: pieces interleaved with run-lengths of
empty squares, the inner `file` loop of `boardToFEN`. -/
def rankFEN (sqs : Squares) (r : Fin 8) : String :=
  let step : (ℕ × String) → Fin 8 → (ℕ × String) := fun acc f =>
    match sqs r f with
    | none => (acc.1 + 1, acc.2)
    | some p =>
      (0, acc.2 ++ (if 0 < acc.1 then toString acc.1 else "") ++ pieceSymbol p)
  let out := (List.finRange 8).foldl step (0, "")
  out.2 ++ (if 0 < out.1 then toString out.1 else "")

/-- `boardToFEN` of `chess-ai.ts`: ranks are emitted from array index 7 down
to 0 (`for (let rank = 7; rank >= 0; rank--)`) — i.e. bottom-up, the
reverse of FEN convention — and neither side-to-move nor castling nor
en-passant data is appended. -/
def boardToFEN (sqs : Squares) : String :=
  String.intercalate "/" (((List.finRange 8).reverse).map (rankFEN sqs))

/-- `boardToFEN` applied to a `ChessBoard` object: `board.squares || board`
selects the grid, every other field is ignored. -/
def boardToFENBoard (b : ChessBoard) : String := boardToFEN b.squares

/-- The `boardToFEN(board, turn)` of the older `SmartChessAI` variant
(`part_000`): ranks top-down (FEN order) and a constant
`` ` ${turn} KQkq - 0 1` `` suffix. -/
def boardToFENv0 (sqs : Squares) (turn : Color) : String :=
  String.intercalate "/" ((List.finRange 8).map (rankFEN sqs)) ++
    " " ++ (match turn with | Color.w => "w" | Color.b => "b") ++ " KQkq - 0 1"

/-! ## The opening book -/

/-- First-match association-list lookup, the access pattern of the plain
object `openingBook[fen]` and of the `Map`s (whose keys are distinct). -/
def mapGet {α : Type} (m : List (String × α)) (k : String) : Option α :=
  (m.find? (fun e => e.1 = k)).map (fun e => e.2)

/-- The four-entry `openingBook` literal. -/
def openingBook : List (String × List String) :=
  [("rnbqkbnr/pppppppp/8/8/8/8/PPPPPPPP/RNBQKBNR w KQkq - 0 1",
    ["e2e4", "d2d4", "c2c4", "g1f3", "b1c3"]),
   ("rnbqkbnr/pppppppp/8/8/4P3/8/PPPP1PPP/RNBQKBNR b KQkq e3 0 1",
    ["e7e5", "c7c5", "e7e6", "d7d5", "g8f6"]),
   ("rnbqkbnr/pppp1ppp/8/4p3/4P3/8/PPPP1PPP/RNBQKBNR w KQkq e6 0 2",
    ["g1f3", "b1c3", "f1c4", "d2d4"]),
   ("rnbqkbnr/pppp1ppp/8/4p3/4P3/5N2/PPPP1PPP/RNBQKB1R b KQkq - 1 2",
    ["b8c6", "g8f6", "d7d6", "f8c5"])]

/-- `getOpeningBookMove`: look the fingerprint up in the book, then return
the first book move string matched by some generated move. -/
def getOpeningBookMove (b : ChessBoard) : Option ChessMove :=
  match mapGet openingBook (boardToFEN b.squares) with
  | some strs =>
    strs.findSome? (fun s =>
      (getLegalMovesForBoard b.squares b.turn).find? (fun m => moveStr m = s))
  | none => none

/-! ## The standard starting position -/

/-- The back rank of colour `c`. -/
def backRank (c : Color) : Fin 8 → Option Piece := fun f =>
  some ⟨[PieceType.rook, PieceType.knight, PieceType.bishop, PieceType.queen,
         PieceType.king, PieceType.bishop, PieceType.knight,
         PieceType.rook].getD (f : Nat) PieceType.rook, c⟩

/-- The standard starting grid in `chess.js` orientation (row 0 = rank 8). -/
def startSquares : Squares := fun r f =>
  if r = (0 : Fin 8) then backRank Color.b f
  else if r = (1 : Fin 8) then some ⟨PieceType.pawn, Color.b⟩
  else if r = (6 : Fin 8) then some ⟨PieceType.pawn, Color.w⟩
  else if r = (7 : Fin 8) then backRank Color.w f
  else none

/-- The starting position as a `ChessBoard` with white to move. -/
def startChessBoard : ChessBoard :=
  ⟨startSquares, Color.w, (true, true, true, true), none, 0, 1⟩

/-! ## Transposition table, ordering cache and search state

JavaScript `Map`s preserve insertion order, `set` on an existing key keeps
its position, and `delete` removes it; they are embedded as insertion-ordered
association lists with distinct keys. -/

/-- The `"exact" | "alpha" | "beta"` bound strings of `TranspositionEntry`. -/
inductive TTFlag where
  | exact : TTFlag
  | alphaFlag : TTFlag
  | betaFlag : TTFlag
deriving DecidableEq

/-- `TranspositionEntry`. -/
structure TranspositionEntry where
  score : JSNum
  depth : Nat
  flag : TTFlag
  bestMove : Option ChessMove
deriving DecidableEq

/-- `Map.set`: replace in place when the key exists, append otherwise. -/
def mapSet {α : Type} (m : List (String × α)) (k : String) (v : α) :
    List (String × α) :=
  if (m.find? (fun e => e.1 = k)).isSome then
    m.map (fun e => if e.1 = k then (k, v) else e)
  else m ++ [(k, v)]

/-- `Map.delete`. -/
def mapDelete {α : Type} (m : List (String × α)) (k : String) :
    List (String × α) :=
  m.filter (fun e => e.1 ≠ k)

/-- `maxTableSize = 1000000`. -/
def maxTableSize : ℕ := 1000000

/-- `maxOrderingCacheSize = 100000`. -/
def maxOrderingCacheSize : ℕ := 100000

/-- The mutable fields of `SmartChessAI` touched by the search.  `clock`
counts `isTimeUp()` invocations since the last `resetSearchStats`; the
oracle `tu : Nat → Bool` answers the `Date.now()` deadline comparison for
each such invocation. -/
structure AIState where
  transpositionTable : List (String × TranspositionEntry)
  moveOrderingCache : List (String × List ChessMove)
  nodesEvaluated : Nat
  clock : Nat

/-- `evictOldEntries`: delete the first (oldest-inserted) 10% of the
entries.  `Math.floor(entries.length * 0.1)` equals `length / 10` for every
length the table can reach (`fl(0.1) > 1/10`, and the relative error is far
below half an ulp at these magnitudes); the `if (key)` guard skips a key
that is the empty string. -/
def evictOldEntries (tt : List (String × TranspositionEntry)) :
    List (String × TranspositionEntry) :=
  let toRemove := tt.length / 10
  (tt.take toRemove).foldl
    (fun acc e => if e.1 ≠ "" then mapDelete acc e.1 else acc) tt

/-- `storeTranspositionEntry`: evict when at capacity, then `set`. -/
def storeTranspositionEntry (tt : List (String × TranspositionEntry))
    (fen : String) (score : JSNum) (depth : Nat) (flag : TTFlag)
    (bestMove : Option ChessMove) : List (String × TranspositionEntry) :=
  let tt1 := if maxTableSize ≤ tt.length then evictOldEntries tt else tt
  mapSet tt1 fen ⟨score, depth, flag, bestMove⟩

/-- `storeOrderingCache`: when full, delete the first key (skipped if it is
the empty string, the `if (firstKey)` truthiness guard), then `set`. -/
def storeOrderingCache (moc : List (String × List ChessMove)) (fen : String)
    (moves : List ChessMove) : List (String × List ChessMove) :=
  let moc1 :=
    if maxOrderingCacheSize ≤ moc.length then
      match moc.head? with
      | some e => if e.1 ≠ "" then mapDelete moc e.1 else moc
      | none => moc
    else moc
  mapSet moc1 fen moves

/-! ## Move ordering -/

/-- `getMoveScore`: captured-piece value ×10, plus the moving piece's own
value, plus 50 for a pawn move into files d or e (`[3, 4]`).  The `color`
parameter is never read, as in the source. -/
def getMoveScore (m : ChessMove) (sqs : Squares) (_color : Color) : ℤ :=
  let captureScore : ℤ :=
    match getPieceAt sqs m.toSq with
    | some tp => pieceValues tp.type * 10
    | none => 0
  let fromScore : ℤ :=
    match getPieceAt sqs m.fromSq with
    | some fp => pieceValues fp.type
    | none => 0
  let centerScore : ℤ :=
    match getPieceAt sqs m.fromSq with
    | some fp =>
      if fp.type = PieceType.pawn ∧
          ((m.toSq.file : Nat) = 3 ∨ (m.toSq.file : Nat) = 4)
      then 50 else 0
    | none => 0
  captureScore + fromScore + centerScore

/-- The stable descending sort `(a, b) => b.score - a.score` on integer
scores (the comparator never yields NaN here). -/
def sortByIntScoreDesc {α : Type} (l : List (α × ℤ)) : List (α × ℤ) :=
  l.mergeSort (fun a b => b.2 ≤ a.2)

/-- The same comparator on `JSNum` scores, as applied to the top-level
`(move, score)` pairs.  On two equal infinities the JavaScript comparator
yields NaN, which V8 treats as 0, i.e. as a tie — exactly the behaviour of
a stable sort under the reflexive test below. -/
def sortByScoreDesc {α : Type} (l : List (α × JSNum)) : List (α × JSNum) :=
  l.mergeSort (fun a b => JSNum.le b.2 a.2)

/-- `getOrderedMoves`: serve from the ordering cache when the fingerprint
is present (ignoring `moves`, `color` and the alias grid); otherwise score,
sort, cache, return.  The fingerprint is `boardToFEN(board)`, which
normalises with `.squares || board` and so reads the current grid `sqs`;
the scores come from `getMoveScore(move, board, color)`, whose only reads
go through `getPieceAt(board, ·)` = `board[rank]?.[file]` — bare indexing
with no normalisation.  On the raw array passed into the top-level search
call the two coincide, but every deeper node receives a `copyBoard` object
`{ ...board, squares: fresh }` whose numeric index properties are the
spread-copied aliases of that top-level array's rank arrays (object spread
copies an array's own enumerable index properties, and `copyBoard` of such
an object re-spreads the same aliases), so there `getPieceAt` reads the
frozen top-of-search grid `root` instead of `sqs`. -/
def getOrderedMoves (moves : List ChessMove) (sqs root : Squares)
    (color : Color) (st : AIState) : List ChessMove × AIState :=
  let fen := boardToFEN sqs
  match mapGet st.moveOrderingCache fen with
  | some cached => (cached, st)
  | none =>
    let ordered :=
      (sortByIntScoreDesc (moves.map (fun m => (m, getMoveScore m root color)))).map
        (fun x => x.1)
    (ordered,
     { st with moveOrderingCache := storeOrderingCache st.moveOrderingCache fen ordered })

/-! ## Quiescence search (pure: it touches no table, no counter, no clock)

Every board-reading helper of the search normalises with
`.squares || board` — except `getPieceAt`, which does `board[rank]?.[file]`.
The search passes `copyBoard` objects downward, and `copyBoard` is
`{ ...board, squares: freshCopy }`: when `board` is the raw 8×8 array
handed to the top-level `iterativeMinimax`/`quiescenceSearch` call, the
spread copies the array's index properties `0..7`, which alias that
array's rank arrays; when `board` is already such a copy object, the
spread propagates the same aliases.  No rank array of the top-level grid
is ever mutated below it (`makeMoveOnBoard` always writes the fresh
`.squares`), so at every node of a search line `getPieceAt` reads the
frozen top-of-search grid.  The embedding therefore carries two grids:
`sqs`, the current position (read by `.squares || board` helpers), and
`root`, the alias-resolved top-of-search grid (read by `getPieceAt`);
the top-level call sites pass the same grid for both. -/

/-- `getCaptureMoves`: legal moves of the current grid filtered by
`getPieceAt(board, move.to) !== null`, i.e. by occupancy of the alias
grid `root`, not of `sqs`. -/
def getCaptureMoves (sqs root : Squares) (color : Color) : List ChessMove :=
  (getLegalMovesForBoard sqs color).filter (fun m => (getPieceAt root m.toSq).isSome)

mutual

/-- `quiescenceSearch`: above 10 plies return the static evaluation; if the
stand-pat evaluation already reaches beta return beta; otherwise raise alpha
to the stand-pat value and walk the capture list. -/
def quiescenceSearch (sqs root : Squares) (alpha beta : JSNum) (depth : Nat)
    (color : Color) : JSNum :=
  if 10 < depth then JSNum.num (evaluatePositionAdvanced sqs)
  else
    let standPat := JSNum.num (evaluatePositionAdvanced sqs)
    if JSNum.le beta standPat then beta
    else
      let alpha1 := if JSNum.lt alpha standPat then standPat else alpha
      qsLoop sqs root (getCaptureMoves sqs root color) alpha1 beta depth color
termination_by (12 - depth, 0)

/-- The `for (const capture of captures)` loop of `quiescenceSearch`:
recurse on each capture with negated score and swapped window
`(-beta, -alpha)`, return beta on a cutoff, else the final alpha.  The
recursive call receives the post-move copy, whose `getPieceAt` reads still
resolve to the same alias grid `root`. -/
def qsLoop (sqs root : Squares) (caps : List ChessMove) (alpha beta : JSNum)
    (depth : Nat) (color : Color) : JSNum :=
  match caps with
  | [] => alpha
  | c :: rest =>
    let score := JSNum.neg (quiescenceSearch (makeMoveOnBoard (copyBoard sqs) c)
      root (JSNum.neg beta) (JSNum.neg alpha) (depth + 1) color.opp)
    if JSNum.le beta score then beta
    else
      let alpha1 := if JSNum.lt alpha score then score else alpha
      qsLoop sqs root rest alpha1 beta depth color
termination_by (11 - depth, caps.length + 1)

end

/-! ## The iterative-deepening search core -/

/-- The usable-hit test of `iterativeMinimax`'s transposition probe:
entries of depth ≥ the requested depth return their score when `exact`,
the current alpha when an `alpha` (upper) entry scores ≤ alpha, the
current beta when a `beta` (lower) entry scores ≥ beta. -/
def ttProbe (e : TranspositionEntry) (depth : Nat) (alpha beta : JSNum) :
    Option JSNum :=
  if depth ≤ e.depth then
    if e.flag = TTFlag.exact then some e.score
    else if e.flag = TTFlag.alphaFlag ∧ JSNum.le e.score alpha then some alpha
    else if e.flag = TTFlag.betaFlag ∧ JSNum.le beta e.score then some beta
    else none
  else none

/-- The `for (const move of orderedMoves)` loop of `iterativeMinimax`:
per move one `isTimeUp()` check (break on true), recursion on the copy,
best/alpha/beta updates and the cutoff flags.  The recursive search is
supplied as `rec`. -/
def mmLoop (tu : Nat → Bool)
    (rec : Squares → JSNum → JSNum → Bool → AIState → JSNum × AIState)
    (sqs : Squares) (isMax : Bool) :
    List ChessMove → JSNum → JSNum → JSNum → Option ChessMove → TTFlag →
    AIState → JSNum × Option ChessMove × TTFlag × AIState
  | [], _alpha, _beta, best, bestMove, flag, st => (best, bestMove, flag, st)
  | m :: rest, alpha, beta, best, bestMove, flag, st =>
    if tu st.clock then (best, bestMove, flag, { st with clock := st.clock + 1 })
    else
      let st1 := { st with clock := st.clock + 1 }
      let out := rec (makeMoveOnBoard (copyBoard sqs) m) alpha beta (!isMax) st1
      let score := out.1
      if isMax then
        let best2 := if JSNum.lt best score then score else best
        let bestMove2 := if JSNum.lt best score then some m else bestMove
        let alpha2 := JSNum.max alpha score
        if JSNum.le beta alpha2 then (best2, bestMove2, TTFlag.betaFlag, out.2)
        else mmLoop tu rec sqs isMax rest alpha2 beta best2 bestMove2 flag out.2
      else
        let best2 := if JSNum.lt score best then score else best
        let bestMove2 := if JSNum.lt score best then some m else bestMove
        let beta2 := JSNum.min beta score
        if JSNum.le beta2 alpha then (best2, bestMove2, TTFlag.alphaFlag, out.2)
        else mmLoop tu rec sqs isMax rest alpha beta2 best2 bestMove2 flag out.2

mutual

/-- `iterativeMinimax`: count the node, probe the transposition table by
the `boardToFEN` fingerprint, and on a usable hit return without touching
anything else; otherwise expand. -/
def iterativeMinimax (tu : Nat → Bool) (sqs root : Squares) (depth : Nat)
    (alpha beta : JSNum) (isMax : Bool) (st0 : AIState) : JSNum × AIState :=
  let st := { st0 with nodesEvaluated := st0.nodesEvaluated + 1 }
  match (mapGet st.transpositionTable (boardToFEN sqs)).bind
      (fun e => ttProbe e depth alpha beta) with
  | some v => (v, st)
  | none => iterativeMinimaxExpand tu sqs root depth alpha beta isMax st
termination_by (depth, 1)

/-- The part of `iterativeMinimax` after the transposition probe: hand off
to quiescence at depth 0; otherwise generate, order, loop over the moves,
and store the resulting entry under this node's fingerprint.  Children
receive the post-move copy as current grid and the unchanged alias grid
`root` (the `{...board}` spread propagates the top-level array's index
aliases to every copy). -/
def iterativeMinimaxExpand (tu : Nat → Bool) (sqs root : Squares) (depth : Nat)
    (alpha beta : JSNum) (isMax : Bool) (st : AIState) : JSNum × AIState :=
  if hd : depth = 0 then
    (quiescenceSearch sqs root alpha beta 0 (if isMax then Color.w else Color.b), st)
  else
    let side := if isMax then Color.w else Color.b
    let legal := getLegalMovesForBoard sqs side
    let ord := getOrderedMoves legal sqs root side st
    let bestInit := if isMax then JSNum.negInf else JSNum.posInf
    let res := mmLoop tu
      (fun bd a bb mx s => iterativeMinimax tu bd root (depth - 1) a bb mx s)
      sqs isMax ord.1 alpha beta bestInit none TTFlag.exact ord.2
    let best := res.1
    let bm := res.2.1
    let flag := res.2.2.1
    let stOut := res.2.2.2
    (best,
     { stOut with transpositionTable := (storeTranspositionEntry
         stOut.transpositionTable (boardToFEN sqs) best depth flag bm) })
termination_by (depth, 0)

end

/-! ## Tier routing (`chooseMoveFromMoves` and friends) -/

/-- `chooseRandomMove`: `moves[Math.floor(Math.random() * moves.length)]`.
The oracle `rnd` supplies the floored product; on the empty list the access
yields `undefined`, i.e. `none`. -/
def chooseRandomMove (rnd : Nat → Nat) (moves : List ChessMove) :
    Option ChessMove :=
  moves[rnd moves.length]?

/-- The king scan of `isKingInCheck`: its inner `break` leaves only the
file loop, so the scan keeps the first king in the last rank containing
one. -/
def findKingWithBreak (sqs : Squares) (c : Color) : Option Sq :=
  (List.finRange 8).foldl
    (fun acc r =>
      match (List.finRange 8).find? (fun f => sqs r f = some ⟨PieceType.king, c⟩) with
      | some f => some ⟨r, f⟩
      | none => acc)
    none

/-- `canPieceAttackSquare`: regenerate the piece's moves and compare the
encoded destination square (the string encoding is injective, so the
comparison is on coordinates). -/
def canPieceAttackSquare (sqs : Squares) (fr ff : Fin 8) (target : Sq) : Bool :=
  match sqs fr ff with
  | none => false
  | some p => (generateBasicMoves sqs fr ff p).any (fun m => m.toSq = target)

/-- `isKingInCheck`: some opposing piece pseudo-legally attacks the king's
square; `false` when the king is absent. -/
def isKingInCheck (sqs : Squares) (c : Color) : Bool :=
  match findKingWithBreak sqs c with
  | none => false
  | some k =>
    scanSquares.any (fun rf =>
      match sqs rf.1 rf.2 with
      | some p =>
        if p.color = c.opp then canPieceAttackSquare sqs rf.1 rf.2 k else false
      | none => false)

/-- `isMoveBlunder` delegates to the check test. -/
def isMoveBlunder (sqs : Squares) (c : Color) : Bool := isKingInCheck sqs c

/-- `chooseSmartRandomMove` (tier 1): filter out moves that leave the own
king attacked on a board copy; pick randomly among the safe ones, or among
all if none are safe. -/
def chooseSmartRandomMove (rnd : Nat → Nat) (moves : List ChessMove)
    (sqs : Squares) (color : Color) : Option ChessMove :=
  let safeMoves := moves.filter
    (fun m => ! isMoveBlunder (makeMoveOnBoard (copyBoard sqs) m) color)
  if 0 < safeMoves.length then chooseRandomMove rnd safeMoves
  else chooseRandomMove rnd moves

/-- `choosePositionalMove` (tier 2): `bestMove = moves[0]`, then keep the
simulated position with the strictly highest basic evaluation. -/
def choosePositionalMove (moves : List ChessMove) (sqs : Squares)
    (color : Color) : Option ChessMove :=
  (moves.foldl
    (fun (acc : Option ChessMove × JSNum) m =>
      let score := JSNum.num
        (evaluatePositionBasic (makeMoveOnBoard (copyBoard sqs) m) color)
      if JSNum.lt acc.2 score then (some m, score) else acc)
    (moves.head?, JSNum.negInf)).1

/-- The `moves.map(...)` of the deepening loop: score every top-level move
by searching the position after it (window `(-∞, ∞)`, minimising next),
negating the result, threading the search state left to right.  The search
is handed `boardCopy.squares` — a raw array — so at this call the current
and alias grids coincide. -/
def scoreTopMoves (tu : Nat → Bool) (sqs : Squares) (depth : Nat) :
    List ChessMove → AIState → List (ChessMove × JSNum) × AIState
  | [], st => ([], st)
  | m :: rest, st =>
    let nb := makeMoveOnBoard (copyBoard sqs) m
    let out := iterativeMinimax tu nb nb
      (depth - 1) JSNum.negInf JSNum.posInf false st
    let tail := scoreTopMoves tu sqs depth rest out.2
    ((m, JSNum.neg out.1) :: tail.1, tail.2)

/-- The `for (let depth = 1; depth <= maxDepth; depth++)` driver: stop on
the deadline, otherwise score and sort the candidates, adopt the top pair
when one exists, and stop early once the best score exceeds 9000. -/
def advLoop (tu : Nat → Bool) (sqs : Squares) (moves : List ChessMove)
    (maxDepth : Nat) (depth : Nat) (bestMove : Option ChessMove)
    (bestScore : JSNum) (st : AIState) : Option ChessMove × JSNum × AIState :=
  if hgt : maxDepth < depth then (bestMove, bestScore, st)
  else
    if tu st.clock then (bestMove, bestScore, { st with clock := st.clock + 1 })
    else
      let st1 := { st with clock := st.clock + 1 }
      let scored := scoreTopMoves tu sqs depth moves st1
      let sorted := sortByScoreDesc scored.1
      let next :=
        match sorted with
        | [] => (bestMove, bestScore)
        | top :: _ => (some top.1, top.2)
      if JSNum.lt (JSNum.num 9000) next.2 then (next.1, next.2, scored.2)
      else advLoop tu sqs moves maxDepth (depth + 1) next.1 next.2 scored.2
termination_by maxDepth + 1 - depth

/-- `chooseAdvancedMoveFromMoves` (tiers 3+): `moves[0]` on the empty list
(`undefined`, i.e. `none`), otherwise iterative deepening up to
`min(level + 2, 8)` starting from `bestMove = moves[0]`. -/
def chooseAdvancedMoveFromMoves (tu : Nat → Bool) (moves : List ChessMove)
    (sqs : Squares) (_color : Color) (level : Nat) (st : AIState) :
    Option ChessMove × AIState :=
  match moves with
  | [] => (none, st)
  | m0 :: _ =>
    let maxDepth := Nat.min (level + 2) 8
    let out := advLoop tu sqs moves maxDepth 1 (some m0) JSNum.negInf st
    (out.1, out.2.2)

/-- `resetSearchStats`. -/
def resetSearchStats (st : AIState) : AIState :=
  { st with nodesEvaluated := 0, clock := 0 }

/-- `chooseMoveFromMoves`: reset the statistics, wrap the raw grid in a
`ChessBoard` (only `squares` and `turn` are ever read), and route on the
level.  There is no emptiness check on `moves` in this entry point. -/
def chooseMoveFromMoves (rnd : Nat → Nat) (tu : Nat → Bool)
    (moves : List ChessMove) (sqs : Squares) (color : Color) (level : Nat)
    (st0 : AIState) : Option ChessMove × AIState :=
  let st := resetSearchStats st0
  if level = 1 then (chooseSmartRandomMove rnd moves sqs color, st)
  else if level = 2 then (choosePositionalMove moves sqs color, st)
  else chooseAdvancedMoveFromMoves tu moves sqs color level st

/-- `ChessAI.chooseMove` of `chess-ai.ts` delegates directly to
`SmartChessAI.chooseMoveFromMoves` at the stored level. -/
def chessAIChooseMove (rnd : Nat → Nat) (tu : Nat → Bool)
    (moves : List ChessMove) (sqs : Squares) (color : Color) (level : Nat)
    (st : AIState) : Option ChessMove × AIState :=
  chooseMoveFromMoves rnd tu moves sqs color level st

/-- `chooseAdvancedMove(board, level)`: `return moves[0]` on an empty
generated list (`undefined`), then the opening-book short-circuit, then
the deepening driver. -/
def chooseAdvancedMove (tu : Nat → Bool) (b : ChessBoard) (level : Nat)
    (st : AIState) : Option ChessMove × AIState :=
  let moves := getLegalMovesForBoard b.squares b.turn
  match moves with
  | [] => (none, st)
  | m0 :: _ =>
    match getOpeningBookMove b with
    | some bm => (some bm, st)
    | none =>
      let maxDepth := Nat.min (level + 2) 8
      let out := advLoop tu b.squares moves maxDepth 1 (some m0) JSNum.negInf st
      (out.1, out.2.2)

/-- `SmartChessAI.chooseMove(board, level)` of `chess-ai.ts`. -/
def chooseMoveBoard (rnd : Nat → Nat) (tu : Nat → Bool) (b : ChessBoard)
    (level : Nat) (st0 : AIState) : Option ChessMove × AIState :=
  let st := resetSearchStats st0
  if level = 1 then
    (chooseSmartRandomMove rnd (getLegalMovesForBoard b.squares b.turn)
      b.squares b.turn, st)
  else if level = 2 then
    (choosePositionalMove (getLegalMovesForBoard b.squares b.turn)
      b.squares b.turn, st)
  else chooseAdvancedMove tu b level st

/-! ## The older `SmartChessAI` variant (`part_000`)

Its `chooseMove(legalMoves, board, color)` guards the empty list with
`throw new Error("No legal moves available")` before any tier dispatch.
Its helper methods (`chooseSmartRandomMove`, `choosePositionalMove`,
`generateBasicMoves`, the evaluators, `getMoveScore`, `copyBoard`,
`makeMoveOnBoard`) are textually identical to the `chess-ai.ts` versions
and are shared; only `boardToFEN`, the book check inside
`chooseAdvancedMove`, and the stateless `minimax` differ. -/

/-- `orderMoves` (used by the variant's `minimax`): in-place stable sort by
descending `getMoveScore`. -/
def orderMoves (moves : List ChessMove) (sqs : Squares) (color : Color) :
    List ChessMove :=
  moves.mergeSort (fun a b => getMoveScore b sqs color ≤ getMoveScore a sqs color)

/-- The maximising loop of the variant's `minimax` (`maxScore`/`alpha`
updates with a beta cutoff); the recursive search is supplied as `rec`. -/
def foldMaxV0 (rec : Squares → JSNum → JSNum → JSNum) (sqs : Squares) :
    List ChessMove → JSNum → JSNum → JSNum → JSNum
  | [], _, _, maxScore => maxScore
  | m :: rest, alpha, beta, maxScore =>
    let s := rec (makeMoveOnBoard (copyBoard sqs) m) alpha beta
    let maxScore1 := JSNum.max maxScore s
    let alpha1 := JSNum.max alpha s
    if JSNum.le beta alpha1 then maxScore1
    else foldMaxV0 rec sqs rest alpha1 beta maxScore1

/-- The minimising loop of the variant's `minimax`. -/
def foldMinV0 (rec : Squares → JSNum → JSNum → JSNum) (sqs : Squares) :
    List ChessMove → JSNum → JSNum → JSNum → JSNum
  | [], _, _, minScore => minScore
  | m :: rest, alpha, beta, minScore =>
    let s := rec (makeMoveOnBoard (copyBoard sqs) m) alpha beta
    let minScore1 := JSNum.min minScore s
    let beta1 := JSNum.min beta s
    if JSNum.le beta1 alpha then minScore1
    else foldMinV0 rec sqs rest alpha beta1 minScore1

/-- The variant's stateless `minimax` with move ordering. -/
def minimaxV0 (sqs : Squares) (depth : Nat) (alpha beta : JSNum)
    (isMax : Bool) : JSNum :=
  if _hd : depth = 0 then JSNum.num (evaluatePositionAdvanced sqs)
  else
    let side := if isMax then Color.w else Color.b
    let ordered := orderMoves (getLegalMovesForBoard sqs side) sqs side
    if isMax then
      foldMaxV0 (fun bd a bb => minimaxV0 bd (depth - 1) a bb false) sqs
        ordered alpha beta JSNum.negInf
    else
      foldMinV0 (fun bd a bb => minimaxV0 bd (depth - 1) a bb true) sqs
        ordered alpha beta JSNum.posInf
termination_by depth

/-- The variant's `chooseAdvancedMove(moves, board, color)`: a working
opening-book short-circuit (its `boardToFEN` appends
`` ` ${turn} KQkq - 0 1` `` and emits ranks top-down), gated on
`level >= 3`, then a plain minimax over the supplied moves with per-colour
comparisons (`depth = min(level + 1, 6)`). -/
def chooseAdvancedMoveV0 (moves : List ChessMove) (sqs : Squares)
    (color : Color) (level : Nat) : Option ChessMove :=
  let fen := boardToFENv0 sqs color
  let bookResult : Option ChessMove :=
    match mapGet openingBook fen with
    | some strs =>
      if 3 ≤ level then
        match strs.find? (fun s => moves.any (fun m => moveStr m = s)) with
        | some bs => moves.find? (fun m => moveStr m = bs)
        | none => none
      else none
    | none => none
  match bookResult with
  | some m => some m
  | none =>
    let depth := Nat.min (level + 1) 6
    (moves.foldl
      (fun (acc : Option ChessMove × JSNum) m =>
        let s := minimaxV0 (makeMoveOnBoard (copyBoard sqs) m) (depth - 1)
          JSNum.negInf JSNum.posInf (if color = Color.w then false else true)
        if color = Color.w then
          (if JSNum.lt acc.2 s then (some m, s) else acc)
        else
          (if JSNum.lt s acc.2 then (some m, s) else acc))
      (moves.head?, if color = Color.w then JSNum.negInf else JSNum.posInf)).1

/-- The variant's `chooseMove(legalMoves, board, color)`: raise
`"No legal moves available"` on the empty list, then dispatch on the level
field. -/
def chooseMoveV0 (rnd : Nat → Nat) (moves : List ChessMove) (sqs : Squares)
    (color : Color) (level : Nat) : Except String (Option ChessMove) :=
  if moves.length = 0 then Except.error "No legal moves available"
  else if level = 1 then Except.ok (chooseSmartRandomMove rnd moves sqs color)
  else if level = 2 then Except.ok (choosePositionalMove moves sqs color)
  else Except.ok (chooseAdvancedMoveV0 moves sqs color level)

/-! ## A board store with explicit references (frame claim C9)

The value-level embedding above cannot even express mutation of the
caller's board, so the aliasing discipline of the tier functions is
refined here: boards live in a store of numbered cells, `copyBoard`
allocates a fresh cell holding the same grid, and `makeMoveOnBoard`
writes through a reference.  Each tier function is re-stated with the
caller's board passed by reference, mirroring the source line by line;
the deeper search runs on the dereferenced grid of a fresh copy (the
source's `iterativeMinimax` receives `boardCopy.squares` and itself only
ever writes to further copies). -/

/-- A store of board cells; a reference is an index. -/
abbrev BoardStore : Type := List Squares

/-- The empty grid used as an out-of-range default (never hit by the
theorems, which track reference validity). -/
def emptyGrid : Squares := fun _ _ => none

/-- Dereference. -/
def getRef (st : BoardStore) (r : Nat) : Squares := st.getD r emptyGrid

/-- Allocate a fresh cell, returning the new store and the reference. -/
def allocRef (st : BoardStore) (b : Squares) : BoardStore × Nat :=
  (st ++ [b], st.length)

/-- Write through a reference. -/
def setRef (st : BoardStore) (r : Nat) (b : Squares) : BoardStore :=
  st.set r b

/-- `copyBoard` in the store: a fresh cell with an equal grid. -/
def copyRef (st : BoardStore) (r : Nat) : BoardStore × Nat :=
  allocRef st (getRef st r)

/-- `makeMoveOnBoard` in the store: mutate the referenced grid. -/
def makeMoveRef (st : BoardStore) (r : Nat) (m : ChessMove) : BoardStore :=
  setRef st r (makeMoveOnBoard (getRef st r) m)

/-- The `moves.filter` of `chooseSmartRandomMove` with the per-callback
copy allocated in the store. -/
def safeFilterRef (color : Color) :
    BoardStore → Nat → List ChessMove → List ChessMove × BoardStore
  | st, _, [] => ([], st)
  | st, r, m :: rest =>
    let c := copyRef st r
    let st1 := makeMoveRef c.1 c.2 m
    let keep := ! isMoveBlunder (getRef st1 c.2) color
    let out := safeFilterRef color st1 r rest
    (if keep then m :: out.1 else out.1, out.2)

/-- Tier 1 on the store. -/
def chooseSmartRandomMoveRef (rnd : Nat → Nat) (st : BoardStore) (r : Nat)
    (moves : List ChessMove) (color : Color) :
    Option ChessMove × BoardStore :=
  let f := safeFilterRef color st r moves
  (if 0 < f.1.length then chooseRandomMove rnd f.1
   else chooseRandomMove rnd moves, f.2)

/-- Tier 2 on the store: per candidate a copy, a write to the copy, and a
read-only evaluation. -/
def choosePositionalMoveRef (color : Color) :
    BoardStore → Nat → List ChessMove → Option ChessMove × JSNum →
    Option ChessMove × JSNum × BoardStore
  | st, _, [], acc => (acc.1, acc.2, st)
  | st, r, m :: rest, acc =>
    let c := copyRef st r
    let st1 := makeMoveRef c.1 c.2 m
    let score := JSNum.num (evaluatePositionBasic (getRef st1 c.2) color)
    choosePositionalMoveRef color st1 r rest
      (if JSNum.lt acc.2 score then (some m, score) else acc)

/-- The top-level move scoring of tiers 3+ on the store: copy, write the
copy, search the copy's grid (the search itself is a pure function of that
grid and the `AIState`). -/
def scoreTopMovesRef (tu : Nat → Bool) (depth : Nat) :
    BoardStore → Nat → List ChessMove → AIState →
    List (ChessMove × JSNum) × BoardStore × AIState
  | st, _, [], ai => ([], st, ai)
  | st, r, m :: rest, ai =>
    let c := copyRef st r
    let st1 := makeMoveRef c.1 c.2 m
    let out := iterativeMinimax tu (getRef st1 c.2) (getRef st1 c.2) (depth - 1)
      JSNum.negInf JSNum.posInf false ai
    let tail := scoreTopMovesRef tu depth st1 r rest out.2
    ((m, JSNum.neg out.1) :: tail.1, tail.2)

/-- The deepening driver of tiers 3+ on the store. -/
def advLoopRef (tu : Nat → Bool) (st : BoardStore) (r : Nat)
    (moves : List ChessMove) (maxDepth : Nat) (depth : Nat)
    (bestMove : Option ChessMove) (bestScore : JSNum) (ai : AIState) :
    Option ChessMove × JSNum × BoardStore × AIState :=
  if _hgt : maxDepth < depth then (bestMove, bestScore, st, ai)
  else
    if tu ai.clock then
      (bestMove, bestScore, st, { ai with clock := ai.clock + 1 })
    else
      let ai1 := { ai with clock := ai.clock + 1 }
      let scored := scoreTopMovesRef tu depth st r moves ai1
      let sorted := sortByScoreDesc scored.1
      let next :=
        match sorted with
        | [] => (bestMove, bestScore)
        | top :: _ => (some top.1, top.2)
      if JSNum.lt (JSNum.num 9000) next.2 then
        (next.1, next.2, scored.2.1, scored.2.2)
      else advLoopRef tu scored.2.1 r moves maxDepth (depth + 1) next.1 next.2
        scored.2.2
termination_by maxDepth + 1 - depth

/-- Tiers 3+ on the store. -/
def chooseAdvancedMoveFromMovesRef (tu : Nat → Bool) (st : BoardStore)
    (r : Nat) (moves : List ChessMove) (level : Nat) (ai : AIState) :
    Option ChessMove × BoardStore × AIState :=
  match moves with
  | [] => (none, st, ai)
  | m0 :: _ =>
    let maxDepth := Nat.min (level + 2) 8
    let out := advLoopRef tu st r moves maxDepth 1 (some m0) JSNum.negInf ai
    (out.1, out.2.2.1, out.2.2.2)

/-- `chooseMoveFromMoves` on the store (the caller's board is cell `r`). -/
def chooseMoveFromMovesRef (rnd : Nat → Nat) (tu : Nat → Bool)
    (st : BoardStore) (r : Nat) (moves : List ChessMove) (color : Color)
    (level : Nat) (ai0 : AIState) :
    Option ChessMove × BoardStore × AIState :=
  let ai := resetSearchStats ai0
  if level = 1 then
    let out := chooseSmartRandomMoveRef rnd st r moves color
    (out.1, out.2, ai)
  else if level = 2 then
    let out := choosePositionalMoveRef color st r moves (moves.head?, JSNum.negInf)
    (out.1, out.2.2, ai)
  else chooseAdvancedMoveFromMovesRef tu st r moves level ai

/-! ## Support definitions for the claims -/

/-- An empty search state (fresh engine instance). -/
def initAIState : AIState := ⟨[], [], 0, 0⟩

/-- The vertically mirrored rank index `7 - r`. -/
def revRank (r : Fin 8) : Fin 8 := ⟨7 - (r : Nat), by omega⟩

/-- The transformation of claim C6: mirror every piece vertically and flip
its colour. -/
def mirrorSquares (sqs : Squares) : Squares := fun r f =>
  (sqs (revRank r) f).map Piece.flip

/-- King (7,4) and rook (7,0) versus king (0,4): true K+R-vs-K material. -/
def krkSquares : Squares := fun r f =>
  if r = (7 : Fin 8) ∧ f = (4 : Fin 8) then some ⟨PieceType.king, Color.w⟩
  else if r = (7 : Fin 8) ∧ f = (0 : Fin 8) then some ⟨PieceType.rook, Color.w⟩
  else if r = (0 : Fin 8) ∧ f = (4 : Fin 8) then some ⟨PieceType.king, Color.b⟩
  else none

/-- The two bare kings on e1 and e8. -/
def kkSquares : Squares := fun r f =>
  if r = (7 : Fin 8) ∧ f = (4 : Fin 8) then some ⟨PieceType.king, Color.w⟩
  else if r = (0 : Fin 8) ∧ f = (4 : Fin 8) then some ⟨PieceType.king, Color.b⟩
  else none

/-- Key list of an association-list map. -/
def keysOf {α : Type} (m : List (String × α)) : List String := m.map Prod.fst

/-! ## The capture recursion as the specification words it (claim C7)

Comparison definitions: identical to `getCaptureMoves` /
`quiescenceSearch` except that the capture filter tests occupancy of the
current position at every level, which is what the claim asserts the
program does. -/

/-- Capture moves per the specification: legal moves of the current
position whose destination square is occupied *in that same position*. -/
def specCaptureMoves (sqs : Squares) (color : Color) : List ChessMove :=
  (getLegalMovesForBoard sqs color).filter (fun m => (getPieceAt sqs m.toSq).isSome)

mutual

/-- Quiescence search per the specification: `quiescenceSearch` with the
capture filter reading the current position. -/
def specQuiescenceSearch (sqs : Squares) (alpha beta : JSNum) (depth : Nat)
    (color : Color) : JSNum :=
  if 10 < depth then JSNum.num (evaluatePositionAdvanced sqs)
  else
    let standPat := JSNum.num (evaluatePositionAdvanced sqs)
    if JSNum.le beta standPat then beta
    else
      let alpha1 := if JSNum.lt alpha standPat then standPat else alpha
      specQsLoop sqs (specCaptureMoves sqs color) alpha1 beta depth color
termination_by (12 - depth, 0)

/-- The capture loop of `specQuiescenceSearch`. -/
def specQsLoop (sqs : Squares) (caps : List ChessMove) (alpha beta : JSNum)
    (depth : Nat) (color : Color) : JSNum :=
  match caps with
  | [] => alpha
  | c :: rest =>
    let score := JSNum.neg (specQuiescenceSearch (makeMoveOnBoard (copyBoard sqs) c)
      (JSNum.neg beta) (JSNum.neg alpha) (depth + 1) color.opp)
    if JSNum.le beta score then beta
    else
      let alpha1 := if JSNum.lt alpha score then score else alpha
      specQsLoop sqs rest alpha1 beta depth color
termination_by (11 - depth, caps.length + 1)

end

/-- The top-of-search grid for claim C7: a white knight on c2 (row 6,
file 2 — rows count from rank 8) and a black rook on h4 (row 4, file 7). -/
def c7root : Squares := fun r f =>
  if r = (6 : Fin 8) ∧ f = (2 : Fin 8) then some ⟨PieceType.knight, Color.w⟩
  else if r = (4 : Fin 8) ∧ f = (7 : Fin 8) then some ⟨PieceType.rook, Color.b⟩
  else none

/-- The quiet knight move c2–b4, legal for white in `c7root`. -/
def c7KnightMove : ChessMove :=
  ⟨⟨(6 : Fin 8), (2 : Fin 8)⟩, ⟨(4 : Fin 8), (1 : Fin 8)⟩⟩

/-- The position one ply into the search: `c7root` after the knight move,
made on a board copy whose `getPieceAt` reads keep resolving to `c7root`. -/
def c7cur : Squares := makeMoveOnBoard (copyBoard c7root) c7KnightMove

/-- The genuine capture available in `c7cur`: the rook takes the knight,
h4×b4. -/
def c7RookCapture : ChessMove :=
  ⟨⟨(4 : Fin 8), (7 : Fin 8)⟩, ⟨(4 : Fin 8), (1 : Fin 8)⟩⟩

/-- The phantom capture: the knight retreat b4–c2 to its vacated square,
empty in `c7cur` but still occupied in the alias grid `c7root`. -/
def c7PhantomCapture : ChessMove :=
  ⟨⟨(4 : Fin 8), (1 : Fin 8)⟩, ⟨(6 : Fin 8), (2 : Fin 8)⟩⟩

/-! # Theorems for the claims -/

/-! ## Association-list map lemmas -/

theorem keysOf_cons {α : Type} (e : String × α) (m : List (String × α)) :
    keysOf (e :: m) = e.1 :: keysOf m := rfl

theorem mapDelete_eq_self {α : Type} (m : List (String × α)) (k : String)
    (h : k ∉ keysOf m) : mapDelete m k = m := by
  rw [mapDelete, List.filter_eq_self]
  intro e he
  simp only [ne_eq, decide_not, Bool.not_eq_eq_eq_not, Bool.not_true,
    decide_eq_false_iff_not]
  intro hk
  exact h (List.mem_map.2 ⟨e, he, hk⟩)

theorem mapDelete_length {α : Type} (m : List (String × α)) (k : String)
    (hk : k ∈ keysOf m) (hnd : (keysOf m).Nodup) :
    (mapDelete m k).length + 1 = m.length := by
  induction m with
  | nil => simp [keysOf] at hk
  | cons e rest ih =>
    rw [keysOf_cons] at hk hnd
    by_cases he : e.1 = k
    · have hrest : k ∉ keysOf rest := by
        rw [← he]; exact (List.nodup_cons.1 hnd).1
      simp only [mapDelete, List.filter]
      rw [show (decide (e.1 ≠ k)) = false by simp [he]]
      rw [← mapDelete]
      rw [mapDelete_eq_self rest k hrest]
      simp
    · have hk' : k ∈ keysOf rest := by
        rcases List.mem_cons.1 hk with h | h
        · exact absurd h.symm he
        · exact h
      simp only [mapDelete, List.filter]
      rw [show (decide (e.1 ≠ k)) = true by simp [he]]
      simpa [mapDelete] using ih hk' (List.nodup_cons.1 hnd).2

theorem mem_keysOf_mapDelete {α : Type} (m : List (String × α))
    (k k' : String) (h : k' ∈ keysOf m) (hne : k' ≠ k) :
    k' ∈ keysOf (mapDelete m k) := by
  obtain ⟨e, hem, hfst⟩ := List.mem_map.1 h
  refine List.mem_map.2 ⟨e, List.mem_filter.2 ⟨hem, ?_⟩, hfst⟩
  simp [hfst, hne]

theorem nodup_keysOf_mapDelete {α : Type} (m : List (String × α)) (k : String)
    (hnd : (keysOf m).Nodup) : (keysOf (mapDelete m k)).Nodup :=
  hnd.sublist ((List.filter_sublist m).map Prod.fst)

theorem keysOf_mapSet_present {α : Type} (m : List (String × α)) (k : String)
    (v : α) (h : (m.find? (fun e => e.1 = k)).isSome) :
    keysOf (mapSet m k v) = keysOf m := by
  rw [mapSet, if_pos h, keysOf, List.map_map, keysOf]
  refine List.map_congr_left ?_
  intro e _
  by_cases he : e.1 = k
  · simp [he]
  · simp [he]

theorem not_mem_keysOf_of_find?_none {α : Type} (m : List (String × α))
    (k : String) (h : ¬ (m.find? (fun e => e.1 = k)).isSome) :
    k ∉ keysOf m := by
  intro hk
  obtain ⟨e, hem, hfst⟩ := List.mem_map.1 hk
  rw [Option.not_isSome_iff_eq_none, List.find?_eq_none] at h
  exact absurd (by simp [hfst]) (h e hem)

theorem nodup_keysOf_mapSet {α : Type} (m : List (String × α)) (k : String)
    (v : α) (hnd : (keysOf m).Nodup) : (keysOf (mapSet m k v)).Nodup := by
  by_cases h : (m.find? (fun e => e.1 = k)).isSome
  · rw [keysOf_mapSet_present m k v h]; exact hnd
  · rw [mapSet, if_neg h, keysOf, List.map_append]
    refine List.Nodup.append hnd (by simp) ?_
    intro a ha hb
    simp only [List.map_cons, List.map_nil, List.mem_singleton] at hb
    exact not_mem_keysOf_of_find?_none m k h (hb ▸ ha)

theorem mapSet_length_le {α : Type} (m : List (String × α)) (k : String)
    (v : α) : (mapSet m k v).length ≤ m.length + 1 := by
  rw [mapSet]
  split
  · simp
  · simp

theorem mapGet_append_single {α : Type} (m : List (String × α)) (k : String)
    (v : α) (h : ∀ e ∈ m, e.1 ≠ k) : mapGet (m ++ [(k, v)]) k = some v := by
  induction m with
  | nil => simp [mapGet]
  | cons e rest ih =>
    have he : e.1 ≠ k := h e (by simp)
    simp only [List.cons_append, mapGet, List.find?]
    rw [show (decide (e.1 = k)) = false by simp [he]]
    exact ih fun e' he' => h e' (by simp [he'])

theorem mapGet_replace {α : Type} (m : List (String × α)) (k : String)
    (v : α) (h : (m.find? (fun e => e.1 = k)).isSome) :
    mapGet (m.map (fun e => if e.1 = k then (k, v) else e)) k = some v := by
  induction m with
  | nil => simp at h
  | cons e rest ih =>
    by_cases he : e.1 = k
    · simp [mapGet, List.find?, he]
    · have h' : (rest.find? (fun e => e.1 = k)).isSome := by
        rw [List.find?] at h
        rwa [show (decide (e.1 = k)) = false by simp [he]] at h
      simp only [List.map_cons, mapGet, List.find?, if_neg he]
      rw [show (decide (e.1 = k)) = false by simp [he]]
      exact ih h'

theorem mapGet_mapSet_self {α : Type} (m : List (String × α)) (k : String)
    (v : α) : mapGet (mapSet m k v) k = some v := by
  rw [mapSet]
  split
  case isTrue h => exact mapGet_replace m k v h
  case isFalse h =>
    refine mapGet_append_single m k v ?_
    intro e he hk
    rw [Option.not_isSome_iff_eq_none, List.find?_eq_none] at h
    exact absurd (by simp [hk]) (h e he)

/-! ## Eviction lemmas (claim C8) -/

theorem foldl_delete_nodup {α : Type} (ks : List (String × α))
    (acc : List (String × α)) (hnd : (keysOf acc).Nodup) :
    (keysOf (ks.foldl
      (fun a e => if e.1 ≠ "" then mapDelete a e.1 else a) acc)).Nodup := by
  induction ks generalizing acc with
  | nil => exact hnd
  | cons e rest ih =>
    simp only [List.foldl_cons]
    split
    · exact ih _ (nodup_keysOf_mapDelete acc e.1 hnd)
    · exact ih _ hnd

theorem foldl_delete_bound {α : Type} (ks : List (String × α))
    (acc : List (String × α)) (hks : (keysOf ks).Nodup)
    (hmem : ∀ e ∈ ks, e.1 ∈ keysOf acc) (hacc : (keysOf acc).Nodup) :
    (ks.foldl (fun a e => if e.1 ≠ "" then mapDelete a e.1 else a) acc).length +
      (ks.filter (fun e => e.1 ≠ "")).length ≤ acc.length := by
  induction ks generalizing acc with
  | nil => simp
  | cons e rest ih =>
    rw [keysOf_cons] at hks
    by_cases he : e.1 = ""
    · simp only [List.foldl_cons, List.filter]
      rw [if_neg (by simp [he])]
      rw [show (decide (e.1 ≠ "")) = false by simp [he]]
      exact ih acc (List.nodup_cons.1 hks).2
        (fun e' he' => hmem e' (by simp [he'])) hacc
    · simp only [List.foldl_cons, List.filter]
      rw [if_pos (by simp [he]), show (decide (e.1 ≠ "")) = true by simp [he]]
      have hdel := mapDelete_length acc e.1 (hmem e (by simp)) hacc
      have hmem' : ∀ e' ∈ rest, e'.1 ∈ keysOf (mapDelete acc e.1) := by
        intro e' he'
        refine mem_keysOf_mapDelete acc e.1 e'.1 (hmem e' (by simp [he'])) ?_
        intro hcontra
        exact (List.nodup_cons.1 hks).1 (hcontra ▸ List.mem_map.2 ⟨e', he', rfl⟩)
      have := ih (mapDelete acc e.1) (List.nodup_cons.1 hks).2 hmem'
        (nodup_keysOf_mapDelete acc e.1 hacc)
      simp only [List.length_cons]
      omega

theorem filter_empty_key_le_one {α : Type} (ks : List (String × α))
    (hks : (keysOf ks).Nodup) :
    (ks.filter (fun e => e.1 = "")).length ≤ 1 := by
  induction ks with
  | nil => simp
  | cons e rest ih =>
    rw [keysOf_cons] at hks
    by_cases he : e.1 = ""
    · have hnone : rest.filter (fun e => e.1 = "") = [] := by
        rw [List.filter_eq_nil_iff]
        intro e' he'
        simp only [decide_eq_true_eq]
        intro hcontra
        exact (List.nodup_cons.1 hks).1
          (he ▸ hcontra ▸ List.mem_map.2 ⟨e', he', rfl⟩)
      simp [List.filter, he, hnone]
    · simp only [List.filter]
      rw [show (decide (e.1 = "")) = false by simp [he]]
      exact ih (List.nodup_cons.1 hks).2

theorem length_filter_add_length_filter_not {α : Type} (l : List α)
    (p : α → Bool) :
    (l.filter p).length + (l.filter (fun a => ! p a)).length = l.length := by
  induction l with
  | nil => simp
  | cons a rest ih =>
    by_cases h : p a
    · rw [List.filter_cons_of_pos (by simp [h]), List.filter_cons_of_neg (by simp [h])]
      simp only [List.length_cons]
      omega
    · rw [List.filter_cons_of_neg (by simpa using h),
        List.filter_cons_of_pos (by simp [h])]
      simp only [List.length_cons]
      omega

/-- **C8**: across any store into a well-formed table (distinct keys, size
within the 1,000,000-entry capacity), the table stays within capacity and
keeps distinct keys; the stored entry is immediately retrievable (storing
never fails); and under capacity the store is a plain `set` with no
eviction.  At capacity, eviction first removes the oldest ≈10% (all but
possibly one of the first 100,000 entries, the `if (key)` guard sparing an
empty-string key), after which the insertion succeeds. -/
theorem c8_transposition_table_bounded (tt : List (String × TranspositionEntry))
    (fen : String) (score : JSNum) (depth : Nat) (flag : TTFlag)
    (bm : Option ChessMove)
    (hnd : (keysOf tt).Nodup) (hcap : tt.length ≤ maxTableSize) :
    (storeTranspositionEntry tt fen score depth flag bm).length ≤ maxTableSize ∧
    (keysOf (storeTranspositionEntry tt fen score depth flag bm)).Nodup ∧
    mapGet (storeTranspositionEntry tt fen score depth flag bm) fen =
      some ⟨score, depth, flag, bm⟩ ∧
    (tt.length < maxTableSize →
      storeTranspositionEntry tt fen score depth flag bm =
        mapSet tt fen ⟨score, depth, flag, bm⟩) := by
  by_cases hfull : maxTableSize ≤ tt.length
  · -- at capacity: tt.length = maxTableSize
    have hlen : tt.length = maxTableSize := le_antisymm hcap hfull
    have htake : (keysOf (tt.take (tt.length / 10))).Nodup := by
      refine hnd.sublist ?_
      exact (List.take_sublist _ _).map Prod.fst
    have hmem : ∀ e ∈ tt.take (tt.length / 10), e.1 ∈ keysOf tt := by
      intro e he
      exact List.mem_map.2 ⟨e, (List.take_sublist _ _).mem he, rfl⟩
    have hbound := foldl_delete_bound (tt.take (tt.length / 10)) tt htake hmem hnd
    have hsplit := length_filter_add_length_filter_not
      (tt.take (tt.length / 10)) (fun e => e.1 ≠ "")
    have hone : ((tt.take (tt.length / 10)).filter
        (fun e => ! (e.1 ≠ ""))).length ≤ 1 := by
      have : ((tt.take (tt.length / 10)).filter (fun e => ! (e.1 ≠ ""))) =
          ((tt.take (tt.length / 10)).filter (fun e => e.1 = "")) := by
        refine List.filter_congr ?_
        intro e _
        by_cases he : e.1 = "" <;> simp [he]
      rw [this]
      exact filter_empty_key_le_one _ htake
    have htlen : (tt.take (tt.length / 10)).length = tt.length / 10 := by
      rw [List.length_take]
      omega
    have hev : (evictOldEntries tt).length + tt.length / 10 ≤ tt.length + 1 := by
      rw [evictOldEntries]
      omega
    have hevnd : (keysOf (evictOldEntries tt)).Nodup := by
      rw [evictOldEntries]
      exact foldl_delete_nodup _ tt hnd
    have hstore : storeTranspositionEntry tt fen score depth flag bm =
        mapSet (evictOldEntries tt) fen ⟨score, depth, flag, bm⟩ := by
      rw [storeTranspositionEntry, if_pos hfull]
    refine ⟨?_, ?_, ?_, ?_⟩
    · rw [hstore]
      have := mapSet_length_le (evictOldEntries tt) fen
        (⟨score, depth, flag, bm⟩ : TranspositionEntry)
      have h10 : maxTableSize / 10 = 100000 := by decide
      rw [maxTableSize] at hlen ⊢
      omega
    · rw [hstore]; exact nodup_keysOf_mapSet _ _ _ hevnd
    · rw [hstore]; exact mapGet_mapSet_self _ _ _
    · intro hlt; omega
  · push_neg at hfull
    have hstore : storeTranspositionEntry tt fen score depth flag bm =
        mapSet tt fen ⟨score, depth, flag, bm⟩ := by
      rw [storeTranspositionEntry, if_neg (by omega)]
    refine ⟨?_, ?_, ?_, fun _ => hstore⟩
    · rw [hstore]
      have := mapSet_length_le tt fen (⟨score, depth, flag, bm⟩ : TranspositionEntry)
      omega
    · rw [hstore]; exact nodup_keysOf_mapSet _ _ _ hnd
    · rw [hstore]; exact mapGet_mapSet_self _ _ _

/-- **C8** (witness): the theorem applied to the empty table. -/
theorem c8_transposition_table_bounded_witness :
    (keysOf ([] : List (String × TranspositionEntry))).Nodup ∧
    ([] : List (String × TranspositionEntry)).length ≤ maxTableSize ∧
    ((storeTranspositionEntry [] "k" (JSNum.num 7) 2 TTFlag.exact none).length ≤
        maxTableSize ∧
      (keysOf (storeTranspositionEntry [] "k" (JSNum.num 7) 2 TTFlag.exact none)).Nodup ∧
      mapGet (storeTranspositionEntry [] "k" (JSNum.num 7) 2 TTFlag.exact none) "k" =
        some ⟨JSNum.num 7, 2, TTFlag.exact, none⟩ ∧
      (([] : List (String × TranspositionEntry)).length < maxTableSize →
        storeTranspositionEntry [] "k" (JSNum.num 7) 2 TTFlag.exact none =
          mapSet [] "k" ⟨JSNum.num 7, 2, TTFlag.exact, none⟩)) :=
  ⟨by decide, by decide,
    c8_transposition_table_bounded [] "k" (JSNum.num 7) 2 TTFlag.exact none
      (by decide) (by decide)⟩

/-- **C3** (code_bug evidence): in the standard starting position the
`chess-ai.ts` fingerprint is `"RNBQKBNR/PPPPPPPP/8/8/8/8/pppppppp/rnbqkbnr"`
— ranks bottom-up and no ` w KQkq - 0 1` suffix — which differs from every
`openingBook` key, so `getOpeningBookMove` returns `undefined` and the
tier-3+ book short-circuit never fires, contrary to the claim that the
starting fingerprint matches a book key and a book move is returned. -/
theorem c3_opening_book_unreachable :
    getOpeningBookMove startChessBoard = none ∧
    boardToFEN startSquares = "RNBQKBNR/PPPPPPPP/8/8/8/8/pppppppp/rnbqkbnr" ∧
    (∀ e ∈ openingBook, e.1 ≠ boardToFEN startSquares) := by
  refine ⟨by decide, by decide, by decide⟩

/-- **C2** (counterexample): the `chooseMoveFromMoves` entry point of
`chess-ai.ts`, called with an empty legal-move list, does not raise at any
tier: it returns the value `undefined` (`none`) for levels 1, 2 and 3 —
there is no emptiness guard on this path. -/
theorem c2_counterexample_empty_moves_returns_undefined :
    (chooseMoveFromMoves (fun _ => 0) (fun _ => false) [] startSquares
      Color.w 1 initAIState).1 = none ∧
    (chooseMoveFromMoves (fun _ => 0) (fun _ => false) [] startSquares
      Color.w 2 initAIState).1 = none ∧
    (chooseMoveFromMoves (fun _ => 0) (fun _ => false) [] startSquares
      Color.w 3 initAIState).1 = none := by
  refine ⟨by decide, by decide, by decide⟩

/-- **C2** (amended): the `chooseMove(legalMoves, board, color)` variant
(`part_000`) raises `"No legal moves available"` on the empty list before
any tier dispatch — so for every tier — while `chooseMoveFromMoves` of
`chess-ai.ts` performs no such check and returns `undefined` (`none`) at
every tier. -/
theorem c2_amended_empty_move_guard :
    (∀ (rnd : Nat → Nat) (sqs : Squares) (color : Color) (level : Nat),
      chooseMoveV0 rnd [] sqs color level =
        Except.error "No legal moves available") ∧
    (∀ (rnd : Nat → Nat) (tu : Nat → Bool) (sqs : Squares) (color : Color)
      (level : Nat) (st : AIState),
      (chooseMoveFromMoves rnd tu [] sqs color level st).1 = none) := by
  constructor
  · intro rnd sqs color level
    rfl
  · intro rnd tu sqs color level st
    by_cases h1 : level = 1
    · simp [chooseMoveFromMoves, h1, chooseSmartRandomMove, chooseRandomMove]
    · by_cases h2 : level = 2
      · simp [chooseMoveFromMoves, h1, h2, choosePositionalMove]
      · simp [chooseMoveFromMoves, h1, h2, chooseAdvancedMoveFromMoves]

/-- **C5** (counterexample): true king+rook-versus-king material receives
an endgame term of 0, not the claimed 500, while two bare kings — matching
none of the four claimed patterns — receive 500, not 0. -/
theorem c5_counterexample_endgame_patterns :
    endgameTerm krkSquares = 0 ∧ endgameTerm kkSquares = 500 := by
  refine ⟨by decide, by decide⟩

/-- **C5** (amended): for every board, the endgame term is 500 exactly when
each side has exactly one piece of any kind (the handler named KRK fires on
bare material counts, not on rook presence), 600 exactly when white has two
pieces including a pawn and black has one (the handler named KRPK, although
the material is K+P-vs-K), and 0 in every other case; the 900 (KQK) and 100
(KPK) bonuses are never produced. -/
theorem c5_amended_endgame_characterization (sqs : Squares) :
    endgameTerm sqs =
      (if colorCount sqs Color.w = 1 ∧ colorCount sqs Color.b = 1 then 500
       else if colorCount sqs Color.w = 2 ∧ colorCount sqs Color.b = 1 ∧
           hasPieceType sqs Color.w PieceType.pawn = true then 600
       else 0) ∧
    endgameTerm sqs ≠ 900 ∧ endgameTerm sqs ≠ 100 := by
  unfold endgameTerm evaluateEndgame evaluateKRKEndgame evaluateKRPKEndgame
  by_cases h1 : colorCount sqs Color.w = 1 ∧ colorCount sqs Color.b = 1
  · have h6 : colorCount sqs Color.w + colorCount sqs Color.b ≤ 6 := by omega
    simp [h1, h6]
  · by_cases h2 : colorCount sqs Color.w = 2 ∧ colorCount sqs Color.b = 1 ∧
        hasPieceType sqs Color.w PieceType.pawn = true
    · have h6 : colorCount sqs Color.w + colorCount sqs Color.b ≤ 6 := by omega
      simp [h1, h2, h6]
    · by_cases h6 : colorCount sqs Color.w + colorCount sqs Color.b ≤ 6
      · simp [h1, h2, h6]
      · simp [h1, h2, h6]

/-- **C6** (counterexample): the bare-kings board on e1/e8 is fixed by the
mirror-and-flip transformation, yet evaluates to 500 (the endgame term), so
`evaluate(mirror(b)) = -evaluate(b)` fails: 500 ≠ -500. -/
theorem c6_counterexample_mirror_bare_kings :
    mirrorSquares kkSquares = kkSquares ∧
    evaluatePositionAdvanced (mirrorSquares kkSquares) ≠
      -evaluatePositionAdvanced kkSquares := by
  refine ⟨by decide, by decide⟩

/-! ## Quiescence capture recursion (claim C7) -/

/-- **C7** (code bug): the claimed capture recursion set is not the one the
program searches.  `getPieceAt` is the one board reader without the
`.squares || board` normalisation, and on the `{ ...board }` copies the
search passes downward its bare indexing resolves to the spread-copied
rank-array aliases of the top-of-search grid.  Concretely, one ply into a
search rooted at `c7root` (white knight c2, black rook h4): (1) the quiet
knight move c2–b4 is legal for white in `c7root`, to an empty destination,
so the pair (`c7cur`, `c7root`) arises one ply into a real search line;
(2) the genuine capture h4×b4 (rook takes the just-moved knight) is, per
the specification, the unique black capture of `c7cur`, yet the program's
capture list for black is empty — the capture is invisible; (3) the quiet
knight retreat b4–c2 to its vacated square is the program's unique white
"capture" — a phantom; and (4) on this position `quiescenceSearch`
returns a different value from the specified search. -/
theorem c7_stale_capture_filter :
    (c7KnightMove ∈ getLegalMovesForBoard c7root Color.w ∧
      getPieceAt c7root c7KnightMove.toSq = none) ∧
    (specCaptureMoves c7cur Color.b = [c7RookCapture] ∧
      getPieceAt c7cur c7RookCapture.toSq =
        some ⟨PieceType.knight, Color.w⟩ ∧
      getCaptureMoves c7cur c7root Color.b = []) ∧
    (getCaptureMoves c7cur c7root Color.w = [c7PhantomCapture] ∧
      getPieceAt c7cur c7PhantomCapture.toSq = none) ∧
    quiescenceSearch c7cur c7root (JSNum.num (-100000)) (JSNum.num 100000) 0
        Color.b ≠
      specQuiescenceSearch c7cur (JSNum.num (-100000)) (JSNum.num 100000) 0
        Color.b := by
  refine ⟨⟨by decide, by decide⟩, ⟨by decide, by decide, by decide⟩,
    ⟨by decide, by decide⟩, ?_⟩
  have hcapsB : getCaptureMoves c7cur c7root Color.b = [] := by decide
  have hspecB : specCaptureMoves c7cur Color.b = [c7RookCapture] := by decide
  have hspecW : specCaptureMoves
      (makeMoveOnBoard (copyBoard c7cur) c7RookCapture) Color.b.opp = [] := by
    decide
  have hreal : quiescenceSearch c7cur c7root (JSNum.num (-100000))
      (JSNum.num 100000) 0 Color.b =
      JSNum.num (evaluatePositionAdvanced c7cur) := by
    rw [quiescenceSearch, hcapsB]
    simp only [qsLoop]
    decide
  have hspec : specQuiescenceSearch c7cur (JSNum.num (-100000))
      (JSNum.num 100000) 0 Color.b =
      JSNum.num (-(evaluatePositionAdvanced
        (makeMoveOnBoard (copyBoard c7cur) c7RookCapture))) := by
    rw [specQuiescenceSearch, hspecB]
    simp only [specQsLoop, specQuiescenceSearch, hspecW]
    decide
  rw [hreal, hspec]
  decide

/-! ## Transposition probe lemmas (claims C4 and C10) -/

/-- `iterativeMinimax` unfolded one step. -/
theorem iterativeMinimax_probe (tu : Nat → Bool) (sqs root : Squares)
    (depth : Nat) (alpha beta : JSNum) (isMax : Bool) (st : AIState) :
    iterativeMinimax tu sqs root depth alpha beta isMax st =
      match (mapGet st.transpositionTable (boardToFEN sqs)).bind
          (fun e => ttProbe e depth alpha beta) with
      | some v => (v, { st with nodesEvaluated := st.nodesEvaluated + 1 })
      | none => iterativeMinimaxExpand tu sqs root depth alpha beta isMax
          { st with nodesEvaluated := st.nodesEvaluated + 1 } := by
  rw [iterativeMinimax]

/-- A usable `exact` hit returns the stored score and touches nothing but
the node counter. -/
theorem iterativeMinimax_tt_exact (tu : Nat → Bool) (sqs root : Squares)
    (depth : Nat) (alpha beta : JSNum) (isMax : Bool) (st : AIState)
    (e : TranspositionEntry)
    (hE : mapGet st.transpositionTable (boardToFEN sqs) = some e)
    (hdepth : depth ≤ e.depth) (hflag : e.flag = TTFlag.exact) :
    iterativeMinimax tu sqs root depth alpha beta isMax st =
      (e.score, { st with nodesEvaluated := st.nodesEvaluated + 1 }) := by
  rw [iterativeMinimax_probe, hE]
  simp [ttProbe, hdepth, hflag]

/-- A usable `alpha` (upper-bound) hit with score ≤ alpha returns alpha. -/
theorem iterativeMinimax_tt_alpha (tu : Nat → Bool) (sqs root : Squares)
    (depth : Nat) (alpha beta : JSNum) (isMax : Bool) (st : AIState)
    (e : TranspositionEntry)
    (hE : mapGet st.transpositionTable (boardToFEN sqs) = some e)
    (hdepth : depth ≤ e.depth) (hflag : e.flag = TTFlag.alphaFlag)
    (hle : JSNum.le e.score alpha = true) :
    iterativeMinimax tu sqs root depth alpha beta isMax st =
      (alpha, { st with nodesEvaluated := st.nodesEvaluated + 1 }) := by
  rw [iterativeMinimax_probe, hE]
  simp [ttProbe, hdepth, hflag, hle]

/-- A usable `beta` (lower-bound) hit with score ≥ beta returns beta. -/
theorem iterativeMinimax_tt_beta (tu : Nat → Bool) (sqs root : Squares)
    (depth : Nat) (alpha beta : JSNum) (isMax : Bool) (st : AIState)
    (e : TranspositionEntry)
    (hE : mapGet st.transpositionTable (boardToFEN sqs) = some e)
    (hdepth : depth ≤ e.depth) (hflag : e.flag = TTFlag.betaFlag)
    (hge : JSNum.le beta e.score = true) :
    iterativeMinimax tu sqs root depth alpha beta isMax st =
      (beta, { st with nodesEvaluated := st.nodesEvaluated + 1 }) := by
  rw [iterativeMinimax_probe, hE]
  simp [ttProbe, hdepth, hflag, hge]

/-- An unusable probe falls through to the expansion. -/
theorem iterativeMinimax_tt_miss (tu : Nat → Bool) (sqs root : Squares)
    (depth : Nat) (alpha beta : JSNum) (isMax : Bool) (st : AIState)
    (e : TranspositionEntry)
    (hE : mapGet st.transpositionTable (boardToFEN sqs) = some e)
    (hprobe : ttProbe e depth alpha beta = none) :
    iterativeMinimax tu sqs root depth alpha beta isMax st =
      iterativeMinimaxExpand tu sqs root depth alpha beta isMax
        { st with nodesEvaluated := st.nodesEvaluated + 1 } := by
  rw [iterativeMinimax_probe, hE]
  simp [hprobe]

/-- **C4**: with an entry stored for this node's fingerprint at depth ≥ the
requested depth, `iterativeMinimax` returns without expanding children —
the state is untouched except the node counter — exactly in the three
usable cases (`exact` returning the stored score, an `alpha` upper entry
with score ≤ alpha returning alpha, a `beta` lower entry with score ≥ beta
returning beta); in every other case it proceeds to the expansion body. -/
theorem c4_tt_probe_semantics (tu : Nat → Bool) (sqs root : Squares) (depth : Nat)
    (alpha beta : JSNum) (isMax : Bool) (st : AIState)
    (e : TranspositionEntry)
    (hE : mapGet st.transpositionTable (boardToFEN sqs) = some e)
    (hdepth : depth ≤ e.depth) :
    (e.flag = TTFlag.exact →
      iterativeMinimax tu sqs root depth alpha beta isMax st =
        (e.score, { st with nodesEvaluated := st.nodesEvaluated + 1 })) ∧
    (e.flag = TTFlag.alphaFlag → JSNum.le e.score alpha = true →
      iterativeMinimax tu sqs root depth alpha beta isMax st =
        (alpha, { st with nodesEvaluated := st.nodesEvaluated + 1 })) ∧
    (e.flag = TTFlag.betaFlag → JSNum.le beta e.score = true →
      iterativeMinimax tu sqs root depth alpha beta isMax st =
        (beta, { st with nodesEvaluated := st.nodesEvaluated + 1 })) ∧
    (ttProbe e depth alpha beta = none →
      iterativeMinimax tu sqs root depth alpha beta isMax st =
        iterativeMinimaxExpand tu sqs root depth alpha beta isMax
          { st with nodesEvaluated := st.nodesEvaluated + 1 }) ∧
    (ttProbe e depth alpha beta = none ↔
      ¬ (e.flag = TTFlag.exact ∨
         (e.flag = TTFlag.alphaFlag ∧ JSNum.le e.score alpha = true) ∨
         (e.flag = TTFlag.betaFlag ∧ JSNum.le beta e.score = true))) := by
  refine ⟨fun hf => iterativeMinimax_tt_exact tu sqs root depth alpha beta isMax st e hE hdepth hf,
    fun hf hle => iterativeMinimax_tt_alpha tu sqs root depth alpha beta isMax st e hE hdepth hf hle,
    fun hf hge => iterativeMinimax_tt_beta tu sqs root depth alpha beta isMax st e hE hdepth hf hge,
    fun hp => iterativeMinimax_tt_miss tu sqs root depth alpha beta isMax st e hE hp, ?_⟩
  rw [ttProbe, if_pos hdepth]
  rcases heq : e.flag with _ | _ | _ <;>
    · by_cases h1 : JSNum.le e.score alpha = true <;>
        by_cases h2 : JSNum.le beta e.score = true <;>
          simp [heq, h1, h2]

/-- The transposition entry and search state used to witness C4. -/
def c4WitnessEntry : TranspositionEntry := ⟨JSNum.num 42, 3, TTFlag.exact, none⟩

/-- A state holding only the kings-board fingerprint. -/
def c4WitnessState : AIState :=
  ⟨[(boardToFEN kkSquares, c4WitnessEntry)], [], 0, 0⟩

/-- **C4** (witness): the theorem applied to a concrete one-entry table. -/
theorem c4_tt_probe_semantics_witness :
    mapGet c4WitnessState.transpositionTable (boardToFEN kkSquares) =
      some c4WitnessEntry ∧
    (2 : Nat) ≤ c4WitnessEntry.depth ∧
    iterativeMinimax (fun _ => false) kkSquares kkSquares 2 (JSNum.num 0) (JSNum.num 1)
      true c4WitnessState =
      (c4WitnessEntry.score,
        { c4WitnessState with
            nodesEvaluated := c4WitnessState.nodesEvaluated + 1 }) :=
  ⟨by decide, by decide,
   (c4_tt_probe_semantics (fun _ => false) kkSquares kkSquares 2 (JSNum.num 0)
      (JSNum.num 1) true c4WitnessState c4WitnessEntry (by decide)
      (by decide)).1 (by decide)⟩

/-! ## Fingerprint side-to-move blindness (claim C10) -/

/-- The ordering cache retains what was stored for the fingerprint. -/
theorem mapGet_storeOrderingCache_self (moc : List (String × List ChessMove))
    (fen : String) (l : List ChessMove) :
    mapGet (storeOrderingCache moc fen l) fen = some l := by
  rw [storeOrderingCache]
  exact mapGet_mapSet_self _ _ _

/-- **C10**: the position fingerprint keying both caches depends only on the
piece layout.  `boardToFEN` ignores side to move, castling rights and
en-passant state; a cached move ordering is served for any colour and any
supplied move list once the fingerprint matches; a miss followed by a call
for the *other* colour on the same grid returns the first call's ordering;
and an `exact` transposition entry is returned by `iterativeMinimax` for
both the maximising and the minimising side. -/
theorem c10_fingerprint_ignores_side :
    (∀ (sqs : Squares) (t1 t2 : Color) (c1 c2 : Bool × Bool × Bool × Bool)
       (e1 e2 : Option String) (h1 h2 f1 f2 : Nat),
       boardToFENBoard ⟨sqs, t1, c1, e1, h1, f1⟩ =
         boardToFENBoard ⟨sqs, t2, c2, e2, h2, f2⟩) ∧
    (∀ (moves : List ChessMove) (sqs root : Squares) (c : Color)
       (st : AIState) (l : List ChessMove),
       mapGet st.moveOrderingCache (boardToFEN sqs) = some l →
       getOrderedMoves moves sqs root c st = (l, st)) ∧
    (∀ (moves1 moves2 : List ChessMove) (sqs root1 root2 : Squares)
       (c1 c2 : Color) (st : AIState),
       mapGet st.moveOrderingCache (boardToFEN sqs) = none →
       (getOrderedMoves moves2 sqs root2 c2
           (getOrderedMoves moves1 sqs root1 c1 st).2).1 =
         (getOrderedMoves moves1 sqs root1 c1 st).1) ∧
    (∀ (tu : Nat → Bool) (sqs root : Squares) (d : Nat) (a b : JSNum)
       (st : AIState) (e : TranspositionEntry),
       mapGet st.transpositionTable (boardToFEN sqs) = some e →
       d ≤ e.depth → e.flag = TTFlag.exact →
       ∀ mx1 mx2 : Bool,
         (iterativeMinimax tu sqs root d a b mx1 st).1 =
         (iterativeMinimax tu sqs root d a b mx2 st).1) := by
  refine ⟨fun _ _ _ _ _ _ _ _ _ _ _ => rfl, ?_, ?_, ?_⟩
  · intro moves sqs root c st l hl
    rw [getOrderedMoves, hl]
  · intro moves1 moves2 sqs root1 root2 c1 c2 st hmiss
    have h1 : getOrderedMoves moves1 sqs root1 c1 st =
        ((sortByIntScoreDesc (moves1.map (fun m => (m, getMoveScore m root1 c1)))).map
            (fun x => x.1),
          { st with moveOrderingCache := (storeOrderingCache st.moveOrderingCache
              (boardToFEN sqs)
              ((sortByIntScoreDesc (moves1.map (fun m =>
                (m, getMoveScore m root1 c1)))).map (fun x => x.1))) }) := by
      rw [getOrderedMoves, hmiss]
    rw [h1, getOrderedMoves]
    simp only [mapGet_storeOrderingCache_self]
  · intro tu sqs root d a b st e hE hdepth hflag mx1 mx2
    rw [iterativeMinimax_tt_exact tu sqs root d a b mx1 st e hE hdepth hflag,
      iterativeMinimax_tt_exact tu sqs root d a b mx2 st e hE hdepth hflag]

/-- A state holding one cached ordering under the kings-board fingerprint. -/
def c10WitnessState : AIState :=
  ⟨[], [(boardToFEN kkSquares, [⟨⟨⟨7, by omega⟩, ⟨4, by omega⟩⟩,
    ⟨⟨6, by omega⟩, ⟨4, by omega⟩⟩⟩])], 0, 0⟩

/-- **C10** (witness): the cached ordering stored under the layout-only
fingerprint is served for both colours. -/
theorem c10_fingerprint_ignores_side_witness :
    mapGet c10WitnessState.moveOrderingCache (boardToFEN kkSquares) =
      some [⟨⟨⟨7, by omega⟩, ⟨4, by omega⟩⟩, ⟨⟨6, by omega⟩, ⟨4, by omega⟩⟩⟩] ∧
    getOrderedMoves [] kkSquares kkSquares Color.b c10WitnessState =
      ([⟨⟨⟨7, by omega⟩, ⟨4, by omega⟩⟩, ⟨⟨6, by omega⟩, ⟨4, by omega⟩⟩⟩],
        c10WitnessState) :=
  ⟨by decide,
   (c10_fingerprint_ignores_side).2.1 [] kkSquares kkSquares Color.b c10WitnessState
     [⟨⟨⟨7, by omega⟩, ⟨4, by omega⟩⟩, ⟨⟨6, by omega⟩, ⟨4, by omega⟩⟩⟩]
     (by decide)⟩

/-! ## Move-selection membership (claim C1) -/

theorem chooseRandomMove_mem (rnd : Nat → Nat) (moves : List ChessMove)
    (h : ∀ n, 0 < n → rnd n < n) (hne : moves ≠ []) :
    ∃ m, chooseRandomMove rnd moves = some m ∧ m ∈ moves := by
  have hlen : 0 < moves.length := List.length_pos.2 hne
  have hidx := h moves.length hlen
  rw [chooseRandomMove]
  exact ⟨moves[rnd moves.length], List.getElem?_eq_getElem hidx,
    List.getElem_mem hidx⟩

theorem chooseSmartRandomMove_mem (rnd : Nat → Nat) (moves : List ChessMove)
    (sqs : Squares) (color : Color) (h : ∀ n, 0 < n → rnd n < n)
    (hne : moves ≠ []) :
    ∃ m, chooseSmartRandomMove rnd moves sqs color = some m ∧ m ∈ moves := by
  simp only [chooseSmartRandomMove]
  split
  case isTrue hs =>
    obtain ⟨m, hm, hmem⟩ := chooseRandomMove_mem rnd _ h
      (List.ne_nil_of_length_pos hs)
    exact ⟨m, hm, (List.mem_filter.1 hmem).1⟩
  case isFalse hs => exact chooseRandomMove_mem rnd moves h hne

theorem foldl_choice_mem {β : Type}
    (step : (Option ChessMove × β) → ChessMove → (Option ChessMove × β))
    (hstep : ∀ acc m, (step acc m).1 = acc.1 ∨ (step acc m).1 = some m)
    (l : List ChessMove) :
    ∀ (acc : Option ChessMove × β) (S : List ChessMove),
      (∀ x, acc.1 = some x → x ∈ S) → (∀ m ∈ l, m ∈ S) →
      ∀ x, (l.foldl step acc).1 = some x → x ∈ S := by
  induction l with
  | nil => intro acc S hacc _ x hx; exact hacc x hx
  | cons m rest ih =>
    intro acc S hacc hl x hx
    rw [List.foldl_cons] at hx
    refine ih (step acc m) S ?_ (fun m' hm' => hl m' (by simp [hm'])) x hx
    intro y hy
    rcases hstep acc m with hcase | hcase
    · exact hacc y (hcase ▸ hy)
    · rw [hcase] at hy
      exact (Option.some_inj.1 hy) ▸ hl m (by simp)

theorem foldl_choice_isSome {β : Type}
    (step : (Option ChessMove × β) → ChessMove → (Option ChessMove × β))
    (hstep : ∀ acc m, (step acc m).1 = acc.1 ∨ (step acc m).1 = some m)
    (l : List ChessMove) :
    ∀ acc : Option ChessMove × β, acc.1.isSome →
      (l.foldl step acc).1.isSome := by
  induction l with
  | nil => intro acc h; exact h
  | cons m rest ih =>
    intro acc h
    rw [List.foldl_cons]
    refine ih (step acc m) ?_
    rcases hstep acc m with hh | hh <;> rw [hh] <;> simp [h]

theorem choosePositionalMove_mem (moves : List ChessMove) (sqs : Squares)
    (color : Color) (hne : moves ≠ []) :
    ∃ m, choosePositionalMove moves sqs color = some m ∧ m ∈ moves := by
  have hstep : ∀ (acc : Option ChessMove × JSNum) (m : ChessMove),
      ((fun (acc : Option ChessMove × JSNum) m =>
        let score := JSNum.num
          (evaluatePositionBasic (makeMoveOnBoard (copyBoard sqs) m) color)
        if JSNum.lt acc.2 score then (some m, score) else acc) acc m).1 = acc.1 ∨
      ((fun (acc : Option ChessMove × JSNum) m =>
        let score := JSNum.num
          (evaluatePositionBasic (makeMoveOnBoard (copyBoard sqs) m) color)
        if JSNum.lt acc.2 score then (some m, score) else acc) acc m).1 = some m := by
    intro acc m
    dsimp only
    split
    · right; rfl
    · left; rfl
  have hsome := foldl_choice_isSome _ hstep moves (moves.head?, JSNum.negInf)
    (by simpa [List.head?_isSome] using hne)
  rw [choosePositionalMove]
  obtain ⟨m, hm⟩ := Option.isSome_iff_exists.1 hsome
  refine ⟨m, hm, ?_⟩
  refine foldl_choice_mem _ hstep moves (moves.head?, JSNum.negInf) moves
    ?_ (fun _ hmm => hmm) m hm
  intro x hx
  exact List.mem_of_mem_head? hx

theorem scoreTopMoves_fst (tu : Nat → Bool) (sqs : Squares) (depth : Nat) :
    ∀ (l : List ChessMove) (st : AIState),
      ((scoreTopMoves tu sqs depth l st).1).map Prod.fst = l := by
  intro l
  induction l with
  | nil => intro st; rfl
  | cons m rest ih => intro st; simp [scoreTopMoves, ih]

theorem sortByScoreDesc_mem {α : Type} (l : List (α × JSNum)) (p : α × JSNum)
    (h : p ∈ sortByScoreDesc l) : p ∈ l :=
  (List.mergeSort_perm l _).mem_iff.1 h

theorem advLoop_mem (tu : Nat → Bool) (sqs : Squares) (moves : List ChessMove)
    (maxDepth : Nat) :
    ∀ (fuel depth : Nat), maxDepth + 1 - depth = fuel →
      ∀ (bm : Option ChessMove) (bs : JSNum) (st : AIState),
        (∃ x, bm = some x ∧ x ∈ moves) →
        ∃ y, (advLoop tu sqs moves maxDepth depth bm bs st).1 = some y ∧
          y ∈ moves := by
  intro fuel
  induction fuel with
  | zero =>
    intro depth hf bm bs st hbm
    rw [advLoop, dif_pos (by omega)]
    exact hbm
  | succ n ih =>
    intro depth hf bm bs st hbm
    rw [advLoop, dif_neg (by omega)]
    split
    · exact hbm
    · simp only []
      rcases hsorted : sortByScoreDesc
          (scoreTopMoves tu sqs depth moves { st with clock := st.clock + 1 }).1
        with _ | ⟨top, srest⟩
      · dsimp only
        split
        · exact hbm
        · exact ih (depth + 1) (by omega) bm bs _ hbm
      · have htop : top.1 ∈ moves := by
          have h1 : top ∈ sortByScoreDesc
              (scoreTopMoves tu sqs depth moves
                { st with clock := st.clock + 1 }).1 := by
            rw [hsorted]; simp
          have h2 := sortByScoreDesc_mem _ _ h1
          have h3 := scoreTopMoves_fst tu sqs depth moves
            { st with clock := st.clock + 1 }
          rw [← h3]
          exact List.mem_map.2 ⟨top, h2, rfl⟩
        dsimp only
        split
        · exact ⟨top.1, rfl, htop⟩
        · exact ih (depth + 1) (by omega) (some top.1) top.2 _ ⟨top.1, rfl, htop⟩

theorem chooseAdvancedMoveFromMoves_mem (tu : Nat → Bool)
    (moves : List ChessMove) (sqs : Squares) (color : Color) (level : Nat)
    (st : AIState) (hne : moves ≠ []) :
    ∃ m, (chooseAdvancedMoveFromMoves tu moves sqs color level st).1 = some m ∧
      m ∈ moves := by
  match moves, hne with
  | m0 :: rest, _ =>
    obtain ⟨y, hy, hmem⟩ := advLoop_mem tu sqs (m0 :: rest)
      (Nat.min (level + 2) 8) (Nat.min (level + 2) 8 + 1 - 1) 1 rfl (some m0)
      JSNum.negInf st ⟨m0, rfl, by simp⟩
    exact ⟨y, hy, hmem⟩

/-- **C1**: for every non-empty legal-move list, board, colour and level,
`chooseMoveFromMoves` returns a move of the supplied list — on the tier-1
random path, the tier-2 positional path, and the tier-3+ deepening path —
for every random oracle satisfying the `Math.floor(Math.random()*n) < n`
bound and every deadline oracle; and `ChessAI.chooseMove` is the same
computation. -/
theorem c1_choose_move_membership (rnd : Nat → Nat) (tu : Nat → Bool)
    (moves : List ChessMove) (sqs : Squares) (color : Color) (level : Nat)
    (st : AIState) (hrnd : ∀ n, 0 < n → rnd n < n) (hne : moves ≠ []) :
    (∃ m, (chooseMoveFromMoves rnd tu moves sqs color level st).1 = some m ∧
      m ∈ moves) ∧
    chessAIChooseMove rnd tu moves sqs color level st =
      chooseMoveFromMoves rnd tu moves sqs color level st := by
  refine ⟨?_, rfl⟩
  by_cases h1 : level = 1
  · simp only [chooseMoveFromMoves, h1, if_pos]
    exact chooseSmartRandomMove_mem rnd moves sqs color hrnd hne
  · by_cases h2 : level = 2
    · simp only [chooseMoveFromMoves, h1, h2, if_neg, if_pos, ite_false,
        ite_true, reduceIte]
      exact choosePositionalMove_mem moves sqs color hne
    · simp only [chooseMoveFromMoves, h1, h2, ite_false, reduceIte]
      exact chooseAdvancedMoveFromMoves_mem tu moves sqs color level
        (resetSearchStats st) hne

/-- The single-move list used to witness C1. -/
def c1WitnessMove : ChessMove :=
  ⟨⟨⟨6, by omega⟩, ⟨4, by omega⟩⟩, ⟨⟨5, by omega⟩, ⟨4, by omega⟩⟩⟩

/-- **C1** (witness): on the one-move list `[e2e3]` at level 1, the chosen
move is a member of the list. -/
theorem c1_choose_move_membership_witness :
    (∀ n, 0 < n → (fun _ => 0) n < n) ∧ ([c1WitnessMove] ≠ []) ∧
    ((∃ m, (chooseMoveFromMoves (fun _ => 0) (fun _ => false) [c1WitnessMove]
        startSquares Color.w 1 initAIState).1 = some m ∧ m ∈ [c1WitnessMove]) ∧
      chessAIChooseMove (fun _ => 0) (fun _ => false) [c1WitnessMove]
          startSquares Color.w 1 initAIState =
        chooseMoveFromMoves (fun _ => 0) (fun _ => false) [c1WitnessMove]
          startSquares Color.w 1 initAIState) :=
  ⟨fun _ h => h, by decide,
   c1_choose_move_membership (fun _ => 0) (fun _ => false) [c1WitnessMove]
     startSquares Color.w 1 initAIState (fun _ h => h) (by decide)⟩

/-! ## Frame property of the tier functions (claim C9) -/

theorem getRef_append_single (st : BoardStore) (b : Squares) (r : Nat)
    (h : r < st.length) : getRef (st ++ [b]) r = getRef st r := by
  rw [getRef, getRef, List.getD_append _ _ _ _ h]

theorem getRef_set_ne (st : BoardStore) (i r : Nat) (b : Squares)
    (h : r ≠ i) : getRef (setRef st i b) r = getRef st r := by
  rw [getRef, setRef, getRef, List.getD_eq_getElem?_getD,
    List.getD_eq_getElem?_getD, List.getElem?_set_ne (Ne.symm h)]

/-- One copy-then-mutate step touches only the fresh cell and grows the
store. -/
theorem copyStep_frame (st : BoardStore) (r : Nat) (m : ChessMove)
    (h : r < st.length) :
    getRef (makeMoveRef (copyRef st r).1 (copyRef st r).2 m) r = getRef st r ∧
    st.length < (makeMoveRef (copyRef st r).1 (copyRef st r).2 m).length := by
  constructor
  · rw [makeMoveRef, copyRef, allocRef]
    dsimp only
    rw [getRef_set_ne _ _ _ _ (by omega)]
    exact getRef_append_single st _ r h
  · rw [makeMoveRef, setRef, copyRef, allocRef]
    simp

theorem safeFilterRef_frame (color : Color) :
    ∀ (moves : List ChessMove) (st : BoardStore) (r : Nat), r < st.length →
      getRef (safeFilterRef color st r moves).2 r = getRef st r ∧
      st.length ≤ (safeFilterRef color st r moves).2.length := by
  intro moves
  induction moves with
  | nil => intro st r h; exact ⟨rfl, le_refl _⟩
  | cons m rest ih =>
    intro st r h
    simp only [safeFilterRef]
    have hstep := copyStep_frame st r m h
    have hr1 : r < (makeMoveRef (copyRef st r).1 (copyRef st r).2 m).length := by
      omega
    have hrec := ih (makeMoveRef (copyRef st r).1 (copyRef st r).2 m) r hr1
    refine ⟨?_, ?_⟩
    · rw [hrec.1]; exact hstep.1
    · have := hrec.2; omega

theorem choosePositionalMoveRef_frame (color : Color) :
    ∀ (moves : List ChessMove) (st : BoardStore) (r : Nat)
      (acc : Option ChessMove × JSNum), r < st.length →
      getRef (choosePositionalMoveRef color st r moves acc).2.2 r =
        getRef st r ∧
      st.length ≤ (choosePositionalMoveRef color st r moves acc).2.2.length := by
  intro moves
  induction moves with
  | nil => intro st r acc h; exact ⟨rfl, le_refl _⟩
  | cons m rest ih =>
    intro st r acc h
    simp only [choosePositionalMoveRef]
    have hstep := copyStep_frame st r m h
    have hr1 : r < (makeMoveRef (copyRef st r).1 (copyRef st r).2 m).length := by
      omega
    refine ⟨?_, ?_⟩
    · exact ((ih _ r _ hr1).1).trans hstep.1
    · exact le_trans (le_of_lt hstep.2) (ih _ r _ hr1).2

theorem scoreTopMovesRef_frame (tu : Nat → Bool) (depth : Nat) :
    ∀ (moves : List ChessMove) (st : BoardStore) (r : Nat) (ai : AIState),
      r < st.length →
      getRef (scoreTopMovesRef tu depth st r moves ai).2.1 r = getRef st r ∧
      st.length ≤ (scoreTopMovesRef tu depth st r moves ai).2.1.length := by
  intro moves
  induction moves with
  | nil => intro st r ai h; exact ⟨rfl, le_refl _⟩
  | cons m rest ih =>
    intro st r ai h
    simp only [scoreTopMovesRef]
    have hstep := copyStep_frame st r m h
    have hr1 : r < (makeMoveRef (copyRef st r).1 (copyRef st r).2 m).length := by
      omega
    refine ⟨?_, ?_⟩
    · exact ((ih _ r _ hr1).1).trans hstep.1
    · exact le_trans (le_of_lt hstep.2) (ih _ r _ hr1).2

theorem advLoopRef_frame (tu : Nat → Bool) (moves : List ChessMove)
    (maxDepth : Nat) :
    ∀ (fuel depth : Nat), maxDepth + 1 - depth = fuel →
      ∀ (st : BoardStore) (r : Nat) (bm : Option ChessMove) (bs : JSNum)
        (ai : AIState), r < st.length →
        getRef (advLoopRef tu st r moves maxDepth depth bm bs ai).2.2.1 r =
          getRef st r ∧
        st.length ≤
          (advLoopRef tu st r moves maxDepth depth bm bs ai).2.2.1.length := by
  intro fuel
  induction fuel with
  | zero =>
    intro depth hf st r bm bs ai h
    rw [advLoopRef, dif_pos (by omega)]
    exact ⟨rfl, le_refl _⟩
  | succ n ih =>
    intro depth hf st r bm bs ai h
    rw [advLoopRef, dif_neg (by omega)]
    split
    · exact ⟨rfl, le_refl _⟩
    · simp only []
      have hsc := scoreTopMovesRef_frame tu depth moves st r
        { ai with clock := ai.clock + 1 } h
      rcases hsorted : sortByScoreDesc
          (scoreTopMovesRef tu depth st r moves
            { ai with clock := ai.clock + 1 }).1
        with _ | ⟨top, srest⟩
      · dsimp only
        split
        · exact ⟨hsc.1, hsc.2⟩
        · have hr1 : r < (scoreTopMovesRef tu depth st r moves
              { ai with clock := ai.clock + 1 }).2.1.length := by
            have := hsc.2; omega
          refine ⟨?_, ?_⟩
          · exact ((ih (depth + 1) (by omega) _ r bm bs _ hr1).1).trans hsc.1
          · exact le_trans hsc.2 (ih (depth + 1) (by omega) _ r bm bs _ hr1).2
      · dsimp only
        split
        · exact ⟨hsc.1, hsc.2⟩
        · have hr1 : r < (scoreTopMovesRef tu depth st r moves
              { ai with clock := ai.clock + 1 }).2.1.length := by
            have := hsc.2; omega
          refine ⟨?_, ?_⟩
          · exact ((ih (depth + 1) (by omega) _ r (some top.1) top.2 _
              hr1).1).trans hsc.1
          · exact le_trans hsc.2
              (ih (depth + 1) (by omega) _ r (some top.1) top.2 _ hr1).2

/-- **C9**: the caller's board cell is unchanged by the move-selection
entry point on every tier path: each simulated move is applied only to a
freshly allocated copy, so after `chooseMoveFromMoves` returns, every
square of the input board holds the same piece as before the call. -/
theorem c9_caller_board_unchanged (rnd : Nat → Nat) (tu : Nat → Bool)
    (st : BoardStore) (r : Nat) (moves : List ChessMove) (color : Color)
    (level : Nat) (ai : AIState) (h : r < st.length) :
    getRef (chooseMoveFromMovesRef rnd tu st r moves color level ai).2.1 r =
      getRef st r := by
  by_cases h1 : level = 1
  · simp only [chooseMoveFromMovesRef, h1, if_pos, chooseSmartRandomMoveRef]
    exact (safeFilterRef_frame color moves st r h).1
  · by_cases h2 : level = 2
    · simp only [chooseMoveFromMovesRef, h1, h2, ite_false, reduceIte]
      exact (choosePositionalMoveRef_frame color moves st r _ h).1
    · simp only [chooseMoveFromMovesRef, h1, h2, ite_false, reduceIte,
        chooseAdvancedMoveFromMovesRef]
      match moves with
      | [] => rfl
      | m0 :: rest =>
        exact (advLoopRef_frame tu (m0 :: rest) (Nat.min (level + 2) 8)
          (Nat.min (level + 2) 8 + 1 - 1) 1 rfl st r (some m0) JSNum.negInf
          (resetSearchStats ai) h).1

/-- **C9** (witness): a one-cell store holding the starting grid is intact
after a level-3 call. -/
theorem c9_caller_board_unchanged_witness :
    (0 : Nat) < [startSquares].length ∧
    getRef (chooseMoveFromMovesRef (fun _ => 0) (fun _ => true) [startSquares]
        0 [⟨⟨⟨6, by omega⟩, ⟨4, by omega⟩⟩, ⟨⟨5, by omega⟩, ⟨4, by omega⟩⟩⟩]
        Color.w 3 initAIState).2.1 0 =
      getRef [startSquares] 0 :=
  ⟨by decide,
   c9_caller_board_unchanged (fun _ => 0) (fun _ => true) [startSquares] 0
     [⟨⟨⟨6, by omega⟩, ⟨4, by omega⟩⟩, ⟨⟨5, by omega⟩, ⟨4, by omega⟩⟩⟩]
     Color.w 3 initAIState (by decide)⟩

/-! ## Mirror antisymmetry of the evaluator (claim C6) -/

theorem revRank_involutive (r : Fin 8) : revRank (revRank r) = r := by
  have := r.isLt
  apply Fin.ext
  simp [revRank]
  omega

/-- Vertical mirroring as a self-equivalence of rank indices. -/
def revEquiv : Equiv (Fin 8) (Fin 8) :=
  ⟨revRank, revRank, revRank_involutive, revRank_involutive⟩

theorem mirror_apply (sqs : Squares) (r f : Fin 8) :
    mirrorSquares sqs (revRank r) f = (sqs r f).map Piece.flip := by
  rw [mirrorSquares, revRank_involutive]

theorem Color.opp_opp (c : Color) : c.opp.opp = c := by cases c <;> rfl

theorem Piece.flip_flip (p : Piece) : p.flip.flip = p := by
  cases p with
  | mk t c => cases c <;> rfl

theorem getPositionValue_mirror (t : PieceType) (c : Color) (r f : Fin 8) :
    getPositionValue t c.opp (revRank r) f = getPositionValue t c r f := by
  revert t c r f
  decide

theorem squareScore_mirror (sqs : Squares) (r f : Fin 8) :
    squareScore (mirrorSquares sqs) (revRank r) f = - squareScore sqs r f := by
  rw [squareScore, squareScore, mirror_apply]
  cases h : sqs r f with
  | none => simp
  | some p =>
    simp only [Option.map_some']
    show (if p.flip.color = Color.w then (1 : ℤ) else -1) *
        (pieceValues p.flip.type +
          getPositionValue p.flip.type p.flip.color (revRank r) f) =
      -((if p.color = Color.w then (1 : ℤ) else -1) *
        (pieceValues p.type + getPositionValue p.type p.color r f))
    have hty : p.flip.type = p.type := rfl
    have hco : p.flip.color = p.color.opp := rfl
    rw [hty, hco, getPositionValue_mirror]
    cases hc : p.color <;> simp [Color.opp]

theorem sum_rev {M : Type} [AddCommMonoid M] (g : Fin 8 → M) :
    ∑ r : Fin 8, g (revRank r) = ∑ r : Fin 8, g r :=
  Equiv.sum_comp revEquiv g

theorem materialPositionScore_mirror (sqs : Squares) :
    materialPositionScore (mirrorSquares sqs) = - materialPositionScore sqs := by
  rw [materialPositionScore, materialPositionScore]
  rw [← sum_rev (fun r => ∑ f : Fin 8, squareScore (mirrorSquares sqs) r f)]
  rw [← Finset.sum_neg_distrib]
  refine Finset.sum_congr rfl ?_
  intro r _
  rw [← Finset.sum_neg_distrib]
  refine Finset.sum_congr rfl ?_
  intro f _
  exact squareScore_mirror sqs r f

/-! ### Move generation under mirroring -/

/-- The mirrored square. -/
def mirrorSq (s : Sq) : Sq := ⟨revRank s.rank, s.file⟩

theorem revRank_coe (r : Fin 8) : ((revRank r : Fin 8) : ℤ) = 7 - (r : ℤ) := by
  have := r.isLt
  simp only [revRank]
  omega

theorem toFin8_rev (x : ℤ) : toFin8 (7 - x) = (toFin8 x).map revRank := by
  rw [toFin8, toFin8]
  by_cases h : 0 ≤ x ∧ x < 8
  · rw [dif_pos h, dif_pos (by omega : (0 : ℤ) ≤ 7 - x ∧ 7 - x < 8)]
    simp only [Option.map_some']
    congr 1
    apply Fin.ext
    simp only [revRank]
    omega
  · rw [dif_neg h, dif_neg (by omega)]
    rfl

theorem mkSq_rev (r f : ℤ) : mkSq (7 - r) f = (mkSq r f).map mirrorSq := by
  rw [mkSq, mkSq, toFin8_rev]
  cases toFin8 r <;> cases toFin8 f <;> rfl

theorem Color.opp_inj (a b : Color) : a.opp = b.opp ↔ a = b := by
  cases a <;> cases b <;> simp [Color.opp]

theorem mirror_at_mirrorSq (sqs : Squares) (s : Sq) :
    mirrorSquares sqs (mirrorSq s).rank (mirrorSq s).file =
      (sqs s.rank s.file).map Piece.flip :=
  mirror_apply sqs s.rank s.file

theorem slideDir_mirror_length (sqs : Squares) (own : Color) (dr df : ℤ) :
    ∀ (fuel : Nat) (r f : ℤ),
      (slideDir (mirrorSquares sqs) own.opp (-dr) df (7 - r) f fuel).length =
      (slideDir sqs own dr df r f fuel).length := by
  intro fuel
  induction fuel with
  | zero => intro r f; rfl
  | succ n ih =>
    intro r f
    simp only [slideDir]
    rw [mkSq_rev]
    cases hs : mkSq r f with
    | none => rfl
    | some s =>
      simp only [Option.map_some']
      rw [mirror_at_mirrorSq]
      cases hp : sqs s.rank s.file with
      | none =>
        simp only [Option.map_none', List.length_cons]
        rw [show (7 : ℤ) - r + -dr = 7 - (r + dr) by ring]
        rw [ih (r + dr) (f + df)]
      | some p =>
        simp only [Option.map_some']
        have hcond : (p.flip.color ≠ own.opp) ↔ (p.color ≠ own) :=
          not_congr (Color.opp_inj p.color own)
        by_cases hc : p.color = own
        · rw [if_neg (by simpa [hcond] using hc), if_neg (by simpa using hc)]
        · rw [if_pos (hcond.2 hc), if_pos hc]
          rfl

theorem jumpTarget_mirror (sqs : Squares) (own : Color) (r f : Fin 8)
    (d : ℤ × ℤ) :
    (jumpTarget (mirrorSquares sqs) (revRank r) f own.opp (-d.1, d.2)).isSome =
    (jumpTarget sqs r f own d).isSome := by
  rw [jumpTarget, jumpTarget]
  rw [show ((revRank r : Fin 8) : ℤ) + (-d.1, d.2).1 = 7 - ((r : ℤ) + d.1) from
    by rw [revRank_coe]; ring]
  rw [show ((f : ℤ) + (-d.1, d.2).2) = (f : ℤ) + d.2 from rfl]
  rw [mkSq_rev]
  cases hs : mkSq ((r : ℤ) + d.1) ((f : ℤ) + d.2) with
  | none => rfl
  | some s =>
    simp only [Option.map_some']
    rw [mirror_at_mirrorSq]
    cases hp : sqs s.rank s.file with
    | none => rfl
    | some p =>
      simp only [Option.map_some']
      have hcond : (p.flip.color ≠ own.opp) ↔ (p.color ≠ own) :=
        not_congr (Color.opp_inj p.color own)
      by_cases hc : p.color = own
      · rw [if_neg (by simpa [hcond] using hc), if_neg (by simpa using hc)]
      · rw [if_pos (hcond.2 hc), if_pos hc]
        rfl

theorem addJumpMoves_length (sqs : Squares) (r f : Fin 8) (own : Color)
    (js : List (ℤ × ℤ)) :
    (addJumpMoves sqs r f own js).length =
      js.countP (fun d => (jumpTarget sqs r f own d).isSome) := by
  induction js with
  | nil => rfl
  | cons d rest ih =>
    simp only [addJumpMoves, List.foldr_cons] at ih ⊢
    cases ht : jumpTarget sqs r f own d <;>
      simp [List.countP_cons, ht, ih]

theorem addJumpMoves_mirror_length (sqs : Squares) (r f : Fin 8)
    (own : Color) (js : List (ℤ × ℤ)) :
    (addJumpMoves (mirrorSquares sqs) (revRank r) f own.opp
      (js.map (fun d => (-d.1, d.2)))).length =
    (addJumpMoves sqs r f own js).length := by
  rw [addJumpMoves_length, addJumpMoves_length, List.countP_map]
  refine List.countP_congr ?_
  intro d _
  simp only [Function.comp_apply]
  rw [jumpTarget_mirror sqs own r f d]

theorem addJumpMoves_mirror_length_perm (sqs : Squares) (r f : Fin 8)
    (own : Color) (js : List (ℤ × ℤ))
    (hperm : (js.map (fun d => ((-d.1 : ℤ), d.2))).Perm js) :
    (addJumpMoves (mirrorSquares sqs) (revRank r) f own.opp js).length =
    (addJumpMoves sqs r f own js).length := by
  calc (addJumpMoves (mirrorSquares sqs) (revRank r) f own.opp js).length
      = js.countP (fun d =>
          (jumpTarget (mirrorSquares sqs) (revRank r) f own.opp d).isSome) :=
        addJumpMoves_length _ _ _ _ _
    _ = (js.map (fun d => ((-d.1 : ℤ), d.2))).countP (fun d =>
          (jumpTarget (mirrorSquares sqs) (revRank r) f own.opp d).isSome) :=
        (hperm.countP_eq _).symm
    _ = (addJumpMoves (mirrorSquares sqs) (revRank r) f own.opp
          (js.map (fun d => (-d.1, d.2)))).length :=
        (addJumpMoves_length _ _ _ _ _).symm
    _ = (addJumpMoves sqs r f own js).length :=
        addJumpMoves_mirror_length sqs r f own js

theorem addLinearMoves_length (sqs : Squares) (r f : Fin 8) (own : Color)
    (dirs : List (ℤ × ℤ)) :
    (addLinearMoves sqs r f own dirs).length =
      (dirs.map (fun d => (slideDir sqs own d.1 d.2 ((r : ℤ) + d.1)
        ((f : ℤ) + d.2) 8).length)).sum := by
  induction dirs with
  | nil => rfl
  | cons d rest ih =>
    simp only [addLinearMoves, List.foldr_cons] at ih ⊢
    simp [ih]

theorem addLinearMoves_mirror_length (sqs : Squares) (r f : Fin 8)
    (own : Color) (dirs : List (ℤ × ℤ)) :
    (addLinearMoves (mirrorSquares sqs) (revRank r) f own.opp
      (dirs.map (fun d => (-d.1, d.2)))).length =
    (addLinearMoves sqs r f own dirs).length := by
  rw [addLinearMoves_length, addLinearMoves_length, List.map_map]
  congr 1
  refine List.map_congr_left ?_
  intro d _
  show (slideDir (mirrorSquares sqs) own.opp (-d.1) d.2
      (((revRank r : Fin 8) : ℤ) + -d.1) ((f : ℤ) + d.2) 8).length = _
  rw [show ((revRank r : Fin 8) : ℤ) + -d.1 = 7 - ((r : ℤ) + d.1) from
    by rw [revRank_coe]; ring]
  exact slideDir_mirror_length sqs own d.1 d.2 8 ((r : ℤ) + d.1) ((f : ℤ) + d.2)

theorem addLinearMoves_mirror_length_perm (sqs : Squares) (r f : Fin 8)
    (own : Color) (dirs : List (ℤ × ℤ))
    (hperm : (dirs.map (fun d => ((-d.1 : ℤ), d.2))).Perm dirs) :
    (addLinearMoves (mirrorSquares sqs) (revRank r) f own.opp dirs).length =
    (addLinearMoves sqs r f own dirs).length := by
  calc (addLinearMoves (mirrorSquares sqs) (revRank r) f own.opp dirs).length
      = (dirs.map (fun d => (slideDir (mirrorSquares sqs) own.opp d.1 d.2
          (((revRank r : Fin 8) : ℤ) + d.1) ((f : ℤ) + d.2) 8).length)).sum :=
        addLinearMoves_length _ _ _ _ _
    _ = ((dirs.map (fun d => ((-d.1 : ℤ), d.2))).map
          (fun d => (slideDir (mirrorSquares sqs) own.opp d.1 d.2
          (((revRank r : Fin 8) : ℤ) + d.1) ((f : ℤ) + d.2) 8).length)).sum :=
        ((hperm.map _).sum_eq).symm
    _ = (addLinearMoves (mirrorSquares sqs) (revRank r) f own.opp
          (dirs.map (fun d => (-d.1, d.2)))).length := by
        rw [addLinearMoves_length, List.map_map]
    _ = (addLinearMoves sqs r f own dirs).length :=
        addLinearMoves_mirror_length sqs r f own dirs

theorem generateBasicMoves_mirror_length (sqs : Squares) (r f : Fin 8)
    (p : Piece) :
    (generateBasicMoves (mirrorSquares sqs) (revRank r) f p.flip).length =
    (generateBasicMoves sqs r f p).length := by
  obtain ⟨t, c⟩ := p
  cases t
  case pawn =>
    show (generateBasicMoves (mirrorSquares sqs) (revRank r) f
      ⟨PieceType.pawn, c.opp⟩).length = _
    rw [generateBasicMoves, generateBasicMoves]
    simp only
    cases c
    · rw [show (if (Color.w.opp = Color.w) then (-1 : ℤ) else 1) = 1 by rfl,
        show (if (Color.w = Color.w) then (-1 : ℤ) else 1) = -1 by rfl]
      rw [show ((revRank r : Fin 8) : ℤ) + 1 = 7 - ((r : ℤ) + -1) from
        by rw [revRank_coe]; ring]
      rw [mkSq_rev]
      cases hs : mkSq ((r : ℤ) + -1) (f : ℤ) with
      | none => rfl
      | some s =>
        simp only [Option.map_some']
        rw [mirror_at_mirrorSq]
        cases hp : sqs s.rank s.file <;> simp
    · rw [show (if (Color.b.opp = Color.w) then (-1 : ℤ) else 1) = -1 by rfl,
        show (if (Color.b = Color.w) then (-1 : ℤ) else 1) = 1 by rfl]
      rw [show ((revRank r : Fin 8) : ℤ) + -1 = 7 - ((r : ℤ) + 1) from
        by rw [revRank_coe]; ring]
      rw [mkSq_rev]
      cases hs : mkSq ((r : ℤ) + 1) (f : ℤ) with
      | none => rfl
      | some s =>
        simp only [Option.map_some']
        rw [mirror_at_mirrorSq]
        cases hp : sqs s.rank s.file <;> simp
  case rook =>
    exact addLinearMoves_mirror_length_perm sqs r f c _ (by decide)
  case knight =>
    exact addJumpMoves_mirror_length_perm sqs r f c _ (by decide)
  case bishop =>
    exact addLinearMoves_mirror_length_perm sqs r f c _ (by decide)
  case queen =>
    exact addLinearMoves_mirror_length_perm sqs r f c _ (by decide)
  case king =>
    exact addJumpMoves_mirror_length_perm sqs r f c _ (by decide)

/-! ### Mobility under mirroring -/

theorem length_foldr_append {α β : Type} (l : List β) (g : β → List α)
    (acc : List α) :
    (l.foldr (fun b a => g b ++ a) acc).length =
      (l.map (fun b => (g b).length)).sum + acc.length := by
  induction l with
  | nil => simp
  | cons x rest ih => simp [ih]; omega

theorem getLegalMovesForBoard_length (sqs : Squares) (c : Color) :
    (getLegalMovesForBoard sqs c).length =
      ∑ r : Fin 8, ∑ f : Fin 8, (movesFromSquare sqs c r f).length := by
  rw [getLegalMovesForBoard]
  have haux : ∀ (rs : List (Fin 8)) (acc : List ChessMove),
      (rs.foldr (fun r a => (List.finRange 8).foldr
        (fun f a2 => movesFromSquare sqs c r f ++ a2) a) acc).length =
      (rs.map (fun r => ((List.finRange 8).map
        (fun f => (movesFromSquare sqs c r f).length)).sum)).sum + acc.length := by
    intro rs
    induction rs with
    | nil => intro acc; simp
    | cons r rest ih =>
      intro acc
      rw [List.foldr_cons, length_foldr_append, ih]
      simp only [List.map_cons, List.sum_cons]
      omega
  rw [haux (List.finRange 8) []]
  simp only [Fin.sum_univ_def, List.length_nil, Nat.add_zero]

theorem movesFromSquare_mirror_length (sqs : Squares) (c : Color)
    (r f : Fin 8) :
    (movesFromSquare (mirrorSquares sqs) c.opp (revRank r) f).length =
    (movesFromSquare sqs c r f).length := by
  rw [movesFromSquare, movesFromSquare, mirror_apply]
  cases hp : sqs r f with
  | none => rfl
  | some p =>
    simp only [Option.map_some']
    by_cases hc : p.color = c
    · rw [if_pos (show p.flip.color = c.opp from (Color.opp_inj _ _).2 hc),
        if_pos hc]
      exact generateBasicMoves_mirror_length sqs r f p
    · rw [if_neg (show ¬(p.flip.color = c.opp) from
        fun hco => hc ((Color.opp_inj _ _).1 hco)), if_neg hc]

theorem getLegalMovesForBoard_mirror_length (sqs : Squares) (c : Color) :
    (getLegalMovesForBoard (mirrorSquares sqs) c.opp).length =
    (getLegalMovesForBoard sqs c).length := by
  rw [getLegalMovesForBoard_length, getLegalMovesForBoard_length]
  rw [← sum_rev (fun r => ∑ f : Fin 8,
    (movesFromSquare (mirrorSquares sqs) c.opp r f).length)]
  refine Finset.sum_congr rfl ?_
  intro r _
  refine Finset.sum_congr rfl ?_
  intro f _
  exact movesFromSquare_mirror_length sqs c r f

theorem evaluateMobility_mirror (sqs : Squares) :
    evaluateMobility (mirrorSquares sqs) = - evaluateMobility sqs := by
  rw [evaluateMobility, evaluateMobility]
  have hw := getLegalMovesForBoard_mirror_length sqs Color.b
  have hb := getLegalMovesForBoard_mirror_length sqs Color.w
  rw [show Color.b.opp = Color.w from rfl] at hw
  rw [show Color.w.opp = Color.b from rfl] at hb
  rw [hw, hb]
  ring

/-! ### Pawn structure under mirroring -/

theorem map_flip_eq_some (x : Option Piece) (q : Piece) :
    x.map Piece.flip = some q ↔ x = some q.flip := by
  cases x with
  | none => simp
  | some p =>
    simp only [Option.map_some', Option.some_inj]
    constructor
    · intro h; rw [← h, Piece.flip_flip]
    · intro h; rw [h, Piece.flip_flip]

theorem mirror_eq_piece (sqs : Squares) (r f : Fin 8) (t : PieceType)
    (c : Color) :
    mirrorSquares sqs r f = some ⟨t, c.opp⟩ ↔
      sqs (revRank r) f = some ⟨t, c⟩ := by
  rw [mirrorSquares, map_flip_eq_some]
  rw [show (Piece.flip ⟨t, c.opp⟩) = ⟨t, c⟩ from by
    simp [Piece.flip, Color.opp_opp]]

theorem finRange_rev_perm : ((List.finRange 8).map revRank).Perm (List.finRange 8) := by
  decide

theorem pawnsOnFile_mirror (sqs : Squares) (f : Fin 8) (c : Color) :
    pawnsOnFile (mirrorSquares sqs) f c.opp = pawnsOnFile sqs f c := by
  rw [pawnsOnFile, pawnsOnFile]
  rw [← List.countP_eq_length_filter, ← List.countP_eq_length_filter]
  have h1 : ∀ r : Fin 8,
      (decide (mirrorSquares sqs r f = some ⟨PieceType.pawn, c.opp⟩)) =
      (decide (sqs (revRank r) f = some ⟨PieceType.pawn, c⟩)) := fun r =>
    decide_eq_decide.2 (mirror_eq_piece sqs r f PieceType.pawn c)
  calc (List.finRange 8).countP
        (fun r => mirrorSquares sqs r f = some ⟨PieceType.pawn, c.opp⟩)
      = (List.finRange 8).countP
        (fun r => sqs (revRank r) f = some ⟨PieceType.pawn, c⟩) := by
        refine List.countP_congr ?_
        intro r _
        rw [h1 r]
    _ = ((List.finRange 8).map revRank).countP
        (fun r => sqs r f = some ⟨PieceType.pawn, c⟩) := by
        rw [List.countP_map]
        rfl
    _ = (List.finRange 8).countP
        (fun r => sqs r f = some ⟨PieceType.pawn, c⟩) :=
        finRange_rev_perm.countP_eq _

theorem doubledPawnScore_mirror (sqs : Squares) :
    doubledPawnScore (mirrorSquares sqs) = - doubledPawnScore sqs := by
  rw [doubledPawnScore, doubledPawnScore, ← Finset.sum_neg_distrib]
  refine Finset.sum_congr rfl ?_
  intro f _
  have hw : pawnsOnFile (mirrorSquares sqs) f Color.w =
      pawnsOnFile sqs f Color.b := by
    have := pawnsOnFile_mirror sqs f Color.b
    simpa using this
  have hb : pawnsOnFile (mirrorSquares sqs) f Color.b =
      pawnsOnFile sqs f Color.w := by
    have := pawnsOnFile_mirror sqs f Color.w
    simpa using this
  rw [hw, hb]
  by_cases h1 : 1 < pawnsOnFile sqs f Color.w <;>
    by_cases h2 : 1 < pawnsOnFile sqs f Color.b <;>
      simp [h1, h2] <;> ring

theorem isPawnIsolated_mirror (sqs : Squares) (f : Fin 8) (c : Color) :
    isPawnIsolated (mirrorSquares sqs) f c.opp = isPawnIsolated sqs f c := by
  rw [isPawnIsolated, isPawnIsolated]
  have hinner : ∀ af : Fin 8,
      ((List.finRange 8).any
        (fun r => mirrorSquares sqs r af = some ⟨PieceType.pawn, c.opp⟩)) =
      ((List.finRange 8).any
        (fun r => sqs r af = some ⟨PieceType.pawn, c⟩)) := by
    intro af
    rw [Bool.eq_iff_iff, List.any_eq_true, List.any_eq_true]
    constructor
    · rintro ⟨r, _, hr⟩
      refine ⟨revRank r, by simp [List.mem_finRange], ?_⟩
      have := (mirror_eq_piece sqs r af PieceType.pawn c).1 (by simpa using hr)
      simpa using this
    · rintro ⟨r, _, hr⟩
      refine ⟨revRank r, by simp [List.mem_finRange], ?_⟩
      have := (mirror_eq_piece sqs (revRank r) af PieceType.pawn c).2
        (by rw [revRank_involutive]; simpa using hr)
      simpa using this
  have hfun : (fun af : Fin 8 => (List.finRange 8).any
      (fun r => mirrorSquares sqs r af = some ⟨PieceType.pawn, c.opp⟩)) =
      (fun af : Fin 8 => (List.finRange 8).any
      (fun r => sqs r af = some ⟨PieceType.pawn, c⟩)) := by
    funext af
    exact hinner af
  rw [hfun]

theorem isolatedTerm_mirror (sqs : Squares) (r f : Fin 8) :
    isolatedTerm (mirrorSquares sqs) (revRank r) f = - isolatedTerm sqs r f := by
  rw [isolatedTerm, isolatedTerm, mirror_apply]
  cases hp : sqs r f with
  | none => simp
  | some p =>
    obtain ⟨t, pc⟩ := p
    simp only [Option.map_some', Piece.flip]
    rw [isPawnIsolated_mirror sqs f pc]
    by_cases ht : t = PieceType.pawn <;>
      by_cases hi : isPawnIsolated sqs f pc = true
    · cases pc <;> simp [ht, hi, Color.opp]
    · simp [ht, hi]
    · simp [ht, hi]
    · simp [ht, hi]

theorem isolatedPawnScore_mirror (sqs : Squares) :
    isolatedPawnScore (mirrorSquares sqs) = - isolatedPawnScore sqs := by
  rw [isolatedPawnScore, isolatedPawnScore, ← Finset.sum_neg_distrib]
  refine Finset.sum_congr rfl ?_
  intro f _
  rw [← sum_rev (fun r => isolatedTerm (mirrorSquares sqs) r f),
    ← Finset.sum_neg_distrib]
  refine Finset.sum_congr rfl ?_
  intro r _
  exact isolatedTerm_mirror sqs r f

/-! ### King safety under mirroring -/

/-- The number of kings of colour `c` on the board (the board invariant the
spec assumes is that this is 1 for each side). -/
def kingCount (sqs : Squares) (c : Color) : ℕ :=
  (Finset.univ.filter (fun rf : Fin 8 × Fin 8 =>
    sqs rf.1 rf.2 = some ⟨PieceType.king, c⟩)).card

theorem scanSquares_complete (rf : Fin 8 × Fin 8) : rf ∈ scanSquares := by
  revert rf
  decide

theorem lastKingPos_king (sqs : Squares) (c : Color) :
    ∀ rf, lastKingPos sqs c = some rf →
      sqs rf.1 rf.2 = some ⟨PieceType.king, c⟩ := by
  rw [lastKingPos]
  have haux : ∀ (l : List (Fin 8 × Fin 8)) (acc : Option (Fin 8 × Fin 8)),
      (∀ x, acc = some x → sqs x.1 x.2 = some ⟨PieceType.king, c⟩) →
      ∀ rf, l.foldl (fun a rf =>
          if sqs rf.1 rf.2 = some ⟨PieceType.king, c⟩ then some rf else a)
        acc = some rf → sqs rf.1 rf.2 = some ⟨PieceType.king, c⟩ := by
    intro l
    induction l with
    | nil => intro acc hacc rf h; exact hacc rf h
    | cons a rest ih =>
      intro acc hacc rf h
      rw [List.foldl_cons] at h
      refine ih _ ?_ rf h
      intro x hx
      by_cases hcond : sqs a.1 a.2 = some ⟨PieceType.king, c⟩
      · rw [if_pos hcond] at hx
        cases hx
        exact hcond
      · rw [if_neg hcond] at hx
        exact hacc x hx
  exact haux scanSquares none (by intro x hx; cases hx)

theorem lastKingPos_isSome_of_king (sqs : Squares) (c : Color)
    (rf : Fin 8 × Fin 8) (h : sqs rf.1 rf.2 = some ⟨PieceType.king, c⟩) :
    (lastKingPos sqs c).isSome := by
  rw [lastKingPos]
  have haux : ∀ (l : List (Fin 8 × Fin 8)) (acc : Option (Fin 8 × Fin 8)),
      (rf ∈ l ∨ acc.isSome) →
      (l.foldl (fun a rf =>
          if sqs rf.1 rf.2 = some ⟨PieceType.king, c⟩ then some rf else a)
        acc).isSome := by
    intro l
    induction l with
    | nil =>
      intro acc hacc
      rcases hacc with hmem | hsome
      · cases hmem
      · exact hsome
    | cons a rest ih =>
      intro acc hacc
      rw [List.foldl_cons]
      rcases hacc with hmem | hsome
      · rcases List.mem_cons.1 hmem with heq | hmem'
        · refine ih _ (Or.inr ?_)
          rw [← heq, if_pos h]
          rfl
        · exact ih _ (Or.inl hmem')
      · refine ih _ (Or.inr ?_)
        by_cases hcond : sqs a.1 a.2 = some ⟨PieceType.king, c⟩
        · rw [if_pos hcond]; rfl
        · rw [if_neg hcond]; exact hsome
  exact haux scanSquares none (Or.inl (scanSquares_complete rf))

theorem king_unique (sqs : Squares) (c : Color) (h : kingCount sqs c ≤ 1)
    (a b2 : Fin 8 × Fin 8)
    (ha : sqs a.1 a.2 = some ⟨PieceType.king, c⟩)
    (hb : sqs b2.1 b2.2 = some ⟨PieceType.king, c⟩) : a = b2 := by
  by_contra hne
  have hsub : ({a, b2} : Finset (Fin 8 × Fin 8)) ⊆
      Finset.univ.filter (fun rf : Fin 8 × Fin 8 =>
        sqs rf.1 rf.2 = some ⟨PieceType.king, c⟩) := by
    intro x hx
    simp only [Finset.mem_insert, Finset.mem_singleton] at hx
    rcases hx with hx | hx <;> subst hx <;>
      simp [Finset.mem_filter, ha, hb]
  have hcard : 2 ≤ kingCount sqs c := by
    rw [kingCount]
    calc 2 = ({a, b2} : Finset (Fin 8 × Fin 8)).card :=
          (Finset.card_pair hne).symm
      _ ≤ _ := Finset.card_le_card hsub
  omega

theorem mirror_king_iff (sqs : Squares) (r f : Fin 8) (c : Color) :
    mirrorSquares sqs r f = some ⟨PieceType.king, c.opp⟩ ↔
      sqs (revRank r) f = some ⟨PieceType.king, c⟩ :=
  mirror_eq_piece sqs r f PieceType.king c

theorem lastKingPos_none_no_king (sqs : Squares) (c : Color)
    (h : lastKingPos sqs c = none) (rf : Fin 8 × Fin 8) :
    sqs rf.1 rf.2 ≠ some ⟨PieceType.king, c⟩ := by
  intro hk
  have := lastKingPos_isSome_of_king sqs c rf hk
  rw [h] at this
  cases this

theorem lastKingPos_mirror (sqs : Squares) (c : Color)
    (h : kingCount sqs c ≤ 1) :
    lastKingPos (mirrorSquares sqs) c.opp =
      (lastKingPos sqs c).map (fun rf => (revRank rf.1, rf.2)) := by
  cases hm : lastKingPos (mirrorSquares sqs) c.opp with
  | some s =>
    have hk' := lastKingPos_king (mirrorSquares sqs) c.opp s hm
    have hk : sqs (revRank s.1) s.2 = some ⟨PieceType.king, c⟩ :=
      (mirror_king_iff sqs s.1 s.2 c).1 hk'
    cases ho : lastKingPos sqs c with
    | none =>
      exact absurd hk (lastKingPos_none_no_king sqs c ho (revRank s.1, s.2))
    | some rf =>
      have hkrf := lastKingPos_king sqs c rf ho
      have heq := king_unique sqs c h (revRank s.1, s.2) rf hk hkrf
      simp only [Option.map_some']
      rw [← heq]
      simp [revRank_involutive]
  | none =>
    cases ho : lastKingPos sqs c with
    | none => rfl
    | some rf =>
      have hkrf := lastKingPos_king sqs c rf ho
      have hkm : mirrorSquares sqs (revRank rf.1) rf.2 =
          some ⟨PieceType.king, c.opp⟩ := by
        rw [mirror_king_iff, revRank_involutive]
        exact hkrf
      have := lastKingPos_isSome_of_king (mirrorSquares sqs) c.opp
        (revRank rf.1, rf.2) hkm
      rw [hm] at this
      cases this

theorem evaluateKingPosition_rev (r f : Fin 8) (c1 c2 : Color) :
    evaluateKingPosition (revRank r) f c1 = evaluateKingPosition r f c2 := by
  revert r f c1 c2
  decide

theorem evaluateKingSafety_mirror (sqs : Squares)
    (hW : kingCount sqs Color.w ≤ 1) (hB : kingCount sqs Color.b ≤ 1) :
    evaluateKingSafety (mirrorSquares sqs) = - evaluateKingSafety sqs := by
  rw [evaluateKingSafety, evaluateKingSafety]
  have h1 : lastKingPos (mirrorSquares sqs) Color.w =
      (lastKingPos sqs Color.b).map (fun rf => (revRank rf.1, rf.2)) := by
    have := lastKingPos_mirror sqs Color.b hB
    simpa using this
  have h2 : lastKingPos (mirrorSquares sqs) Color.b =
      (lastKingPos sqs Color.w).map (fun rf => (revRank rf.1, rf.2)) := by
    have := lastKingPos_mirror sqs Color.w hW
    simpa using this
  rw [h1, h2]
  cases hob : lastKingPos sqs Color.b with
  | none =>
    cases how : lastKingPos sqs Color.w with
    | none => simp
    | some w1 =>
      simp only [Option.map_some', Option.map_none']
      rw [evaluateKingPosition_rev w1.1 w1.2 Color.b Color.w]
      ring
  | some b1 =>
    cases how : lastKingPos sqs Color.w with
    | none =>
      simp only [Option.map_some', Option.map_none']
      rw [evaluateKingPosition_rev b1.1 b1.2 Color.w Color.b]
      ring
    | some w1 =>
      simp only [Option.map_some']
      rw [evaluateKingPosition_rev b1.1 b1.2 Color.w Color.b,
        evaluateKingPosition_rev w1.1 w1.2 Color.b Color.w]
      ring

/-! ### The amended antisymmetry theorem -/

/-- **C6** (amended): for boards with at most one king per side, the
advanced evaluation is antisymmetric under vertical mirror plus colour
swap *up to the endgame-pattern term*:
`eval(mirror b) + eval(b) = endgame(mirror b) + endgame(b)`.  In
particular, whenever the endgame term vanishes on both boards (e.g. more
than six pieces), `eval(mirror b) = -eval(b)`; the unamended claim fails
exactly because the endgame term is not antisymmetric (see the bare-kings
counterexample). -/
theorem c6_amended_mirror_antisymmetry (sqs : Squares)
    (hW : kingCount sqs Color.w ≤ 1) (hB : kingCount sqs Color.b ≤ 1) :
    (evaluatePositionAdvanced (mirrorSquares sqs) + evaluatePositionAdvanced sqs =
      endgameTerm (mirrorSquares sqs) + endgameTerm sqs) ∧
    (endgameTerm (mirrorSquares sqs) = 0 → endgameTerm sqs = 0 →
      evaluatePositionAdvanced (mirrorSquares sqs) =
        - evaluatePositionAdvanced sqs) := by
  have hmain : evaluatePositionAdvanced (mirrorSquares sqs) +
      evaluatePositionAdvanced sqs =
      endgameTerm (mirrorSquares sqs) + endgameTerm sqs := by
    rw [evaluatePositionAdvanced, evaluatePositionAdvanced,
      evaluatePawnStructure, evaluatePawnStructure,
      materialPositionScore_mirror, evaluateMobility_mirror,
      doubledPawnScore_mirror, isolatedPawnScore_mirror,
      evaluateKingSafety_mirror sqs hW hB]
    ring
  refine ⟨hmain, fun h1 h2 => ?_⟩
  rw [h1, h2] at hmain
  omega

/-- **C6** (witness): the amended equation applied to the bare-kings
board. -/
theorem c6_amended_mirror_antisymmetry_witness :
    kingCount kkSquares Color.w ≤ 1 ∧ kingCount kkSquares Color.b ≤ 1 ∧
    ((evaluatePositionAdvanced (mirrorSquares kkSquares) +
        evaluatePositionAdvanced kkSquares =
      endgameTerm (mirrorSquares kkSquares) + endgameTerm kkSquares) ∧
    (endgameTerm (mirrorSquares kkSquares) = 0 → endgameTerm kkSquares = 0 →
      evaluatePositionAdvanced (mirrorSquares kkSquares) =
        - evaluatePositionAdvanced kkSquares)) :=
  ⟨by decide, by decide,
   c6_amended_mirror_antisymmetry kkSquares (by decide) (by decide)⟩

end ChessMCP
